import Mathlib

/-!
Shallow embedding of the `rectangular_promotion` crate: lattice-word
validation and statistics (`src/lattice_word.rs`) and the successor-based
enumerator of all lattice words of a fixed content (`src/lattice_words.rs`).

Machine integers (`u8`, `usize`) are modelled as `Nat`; all subtractions in
the source act on values where the Rust code would not underflow on the
inputs the theorems quantify over, and counter vectors indexed only at
in-range positions are modelled as total functions `Nat → Nat`.
-/

namespace RectangularPromotion

/-- Enumerated consecutive pairs `(i, word[i], word[i+1])`, as produced by
`into_pairs().enumerate()` in `src/pairs.rs`. -/
def enumPairsAux : Nat → List Nat → List (Nat × Nat × Nat)
  | _, [] => []
  | _, [_] => []
  | i, a :: b :: rest => (i, a, b) :: enumPairsAux (i + 1) (b :: rest)

/-- Enumerated consecutive pairs of a word, starting at index 0. -/
def enumPairs (w : List Nat) : List (Nat × Nat × Nat) := enumPairsAux 0 w

/-- `ScentIter` collected into a list: every position `i+1` such that
`word[i+1].cmp(word[i])` equals the stored ordering. -/
def scentPositions (ord : Ordering) (w : List Nat) : List Nat :=
  (enumPairs w).filterMap fun t => if compare t.2.2 t.2.1 = ord then some (t.1 + 1) else none

/-- `descents()`: positions `i+1` with `word[i] > word[i+1]`. -/
def descents (w : List Nat) : List Nat := scentPositions Ordering.lt w

/-- `ascents()`: positions `i+1` with `word[i] < word[i+1]`. -/
def ascents (w : List Nat) : List Nat := scentPositions Ordering.gt w

/-- `major_index()`: left fold of the ascent positions with `+` from `0`. -/
def majorIndex (w : List Nat) : Nat := (ascents w).foldl (fun acc x => acc + x) 0

/-- `word.iter().min().unwrap()` (0 for the empty word, which the source
never queries). -/
def listMinD (w : List Nat) : Nat :=
  match w with
  | [] => 0
  | a :: rest => rest.foldl Nat.min a

/-- `word.iter().max().unwrap()` (0 for the empty word, which the source
never queries). -/
def listMaxD (w : List Nat) : Nat :=
  match w with
  | [] => 0
  | a :: rest => rest.foldl Nat.max a

/-- Increment slot `v` of a counter map (`counts[v] += 1`). -/
def bump (c : Nat → Nat) (v : Nat) : Nat → Nat := fun i => if i = v then c v + 1 else c i

/-- The validation loop of `LatticeWord::new`: running counts indexed by the
symbol shifted down by the minimum; on each symbol the shifted slot is
incremented and, for a positive shifted value, the word is rejected when its
count exceeds the count of the previous slot. -/
def newLoop (mn : Nat) : (Nat → Nat) → List Nat → Bool
  | _, [] => true
  | c, e :: rest =>
    let entry := e - mn
    let c1 := bump c entry
    if 0 < entry ∧ c1 (entry - 1) < c1 entry then false
    else newLoop mn c1 rest

/-- Whether `LatticeWord::new` accepts the byte sequence. -/
def isLatticeWord (w : List Nat) : Bool :=
  match w with
  | [] => true
  | _ :: _ => newLoop (listMinD w) (fun _ => 0) w

/-- `LatticeWord::new`. -/
def latticeWordNew (w : List Nat) : Except String (List Nat) :=
  if isLatticeWord w then Except.ok w else Except.error "word is not a lattice word"

/-- The scan of `is_rectangle`: running maximum `mx`, count `minc` of the
fixed first symbol `mn`, count `maxc` of the running maximum (reset whenever
the maximum grows). -/
def isRectangleLoop (mn : Nat) : Nat → Nat → Nat → List Nat → Bool
  | _, minc, maxc, [] => minc == maxc
  | mx, minc, maxc, e :: rest =>
    let mx1 := if mx < e then e else mx
    let maxc0 := if mx < e then 0 else maxc
    let minc1 := if e = mn then minc + 1 else minc
    let maxc1 := if e = mx1 then maxc0 + 1 else maxc0
    isRectangleLoop mn mx1 minc1 maxc1 rest

/-- `is_rectangle`; `none` models the out-of-bounds `word[0]` access (a
panic) on the empty word. -/
def isRectangle? (w : List Nat) : Option Bool :=
  match w with
  | [] => none
  | e :: rest => some (isRectangleLoop e e 0 0 (e :: rest))

/-- The reverse scan of `LatticeWord::promotion` over the rotated buffer:
state is the hole row `hr`, the hole column `hc` and the tracking shape `tr`
(indexed by row shifted down by `first`); the cell where the incremented
count reaches the hole column is overwritten with the hole row, and the scan
stops once the hole row reaches `first`. -/
def promotionLoop (first : Nat) : Nat → Nat → (Nat → Nat) → List Nat → List Nat
  | _, _, _, [] => []
  | hr, hc, tr, e :: rest =>
    let tr1 := bump tr (e - first)
    if e = hr then e :: promotionLoop first hr (hc + 1) tr1 rest
    else if tr1 (e - first) = hc then
      if hr - 1 = first then hr :: rest
      else hr :: promotionLoop first (hr - 1) hc tr1 rest
    else e :: promotionLoop first hr hc tr1 rest

/-- `LatticeWord::promotion`: empty word promotes to itself; non-rectangular
contents fail; otherwise the word is rotated right by one (seeding position 0
with the first symbol and discarding the last) and repaired by the reverse
hole-propagation scan. -/
def promotion (w : List Nat) : Except String (List Nat) :=
  match w with
  | [] => Except.ok []
  | e :: rest =>
    if ! isRectangleLoop e e 0 0 (e :: rest) then
      Except.error "only implemented for rectangular shapes"
    else
      let lastSym := (e :: rest).getLastD 0
      let start := e :: (e :: rest).dropLast
      let tr0 : Nat → Nat := fun i => if i = lastSym - e then 1 else 0
      Except.ok (promotionLoop e lastSym 1 tr0 start.reverse).reverse

/-- The forward scan of `TableauCyclicDescentIter`, fully collected: ascent
positions `idx+1` are emitted as they are met, the pending cyclic descent
`cd` is updated by the hole-tracking bookkeeping, and a positive pending
value is emitted once after the pairs are exhausted. -/
def tcdLoop (base : Nat) : Nat → Nat → Nat → (Nat → Nat) → List (Nat × Nat × Nat) → List Nat
  | cd, _, _, _, [] => if 0 < cd then [cd] else []
  | cd, hr, hc, tr, (idx, f, s) :: rest =>
    let cr := s - base
    let tr1 := bump tr cr
    let st :=
      if cr = hr then (0, hr, hc + 1)
      else if tr1 cr = hc then (idx + 2, hr + 1, hc)
      else (cd, hr, hc)
    if f < s then (idx + 1) :: tcdLoop base st.1 st.2.1 st.2.2 tr1 rest
    else tcdLoop base st.1 st.2.1 st.2.2 tr1 rest

/-- `tableau_cyclic_descents`, fully collected; the outer `none` models the
panic of `is_rectangle` indexing `word[0]` on the empty word. -/
def tableauCyclicDescents (w : List Nat) : Option (Except String (List Nat)) :=
  match w with
  | [] => none
  | e :: rest =>
    if ! isRectangleLoop e e 0 0 (e :: rest) then
      some (Except.error "only implemented for rectangular shapes")
    else
      some (Except.ok (tcdLoop e 0 0 1 (fun i => if i = 0 then 1 else 0) (enumPairs (e :: rest))))

/-- The write sequence of `init_starting_word`, walking the weight's parts
from the shortest row upward (`weight.iter().rev()`): state is the previous
part `lastRow` and the current column height. -/
def swAux : Nat → Nat → List Nat → List Nat
  | _, _, [] => []
  | lastRow, height, row :: rest =>
    (List.replicate (row - lastRow) (List.range height)).flatten ++ swAux row (height - 1) rest

/-- All symbols written by `init_starting_word` for a given weight. -/
def startingWordWrites (weight : List Nat) : List Nat := swAux 0 weight.length weight.reverse

/-- `init_starting_word`: overwrite the front of `word` with the canonical
writes, leaving the remainder of the buffer unchanged. -/
def initStartingWord (word weight : List Nat) : List Nat :=
  let g := startingWordWrites weight
  g ++ word.drop g.length

/-- The first-descent scan of `LatticeWordsStreamingIter::next`: accumulate
each pair's first element into `subweight`, stop at the first pair with
`second < first` returning position `index + 1` together with the
accumulated subweight. -/
def findFirstDescent : List Nat → List (Nat × Nat × Nat) → Option (Nat × List Nat)
  | _, [] => none
  | sub, (idx, f, s) :: rest =>
    let sub1 := sub.set f (sub.getD f 0 + 1)
    if s < f then some (idx + 1, sub1) else findFirstDescent sub1 rest

/-- Reverse scan of `subweight` for the highest index holding `target`; the
source unwraps every step, so the (unreachable) miss is mapped to `0`. -/
def revFindEq (sub : List Nat) (target : Nat) : Nat :=
  ((List.range sub.length).reverse.find? fun i => sub.getD i 0 == target).getD 0

/-- State of `LatticeWordsStreamingIter`: the `first_pass` flag and the
`current` buffer.  The `subweight` buffer is omitted because the source
zeroes it at the start of every successor step. -/
structure LWState where
  firstPass : Bool
  current : List Nat
  deriving Repr, DecidableEq

/-- One call of `LatticeWordsStreamingIter::next`, returning the yielded word
(if any) and the new iterator state. -/
def lwNext (weight : List Nat) (s : LWState) : Option (List Nat) × LWState :=
  if s.firstPass then
    let w := initStartingWord (List.replicate weight.sum 0) weight
    (some w, ⟨false, w⟩)
  else
    match findFirstDescent (List.replicate weight.sum 0) (enumPairs s.current) with
    | none => (none, s)
    | some (fd, sub) =>
      let oldRow := s.current.getD fd 0
      let target := sub.getD (oldRow + 1) 0
      let nri := revFindEq sub target
      let sub1 := sub.set oldRow (sub.getD oldRow 0 + 1)
      let sub2 := sub1.set nri (sub1.getD nri 0 - 1)
      let cur1 := s.current.set fd nri
      let cur2 := initStartingWord (cur1.take fd) sub2 ++ cur1.drop fd
      (some cur2, ⟨false, cur2⟩)

/-- The iterator state produced by `LatticeWordsStreamingIter::new`. -/
def lwInit (weight : List Nat) : LWState := ⟨true, List.replicate weight.sum 0⟩

/-- The iterator state after `k` further calls to `next`. -/
def lwStateIter (weight : List Nat) (s : LWState) : Nat → LWState
  | 0 => s
  | k + 1 => (lwNext weight (lwStateIter weight s k)).2

/-- The outputs of the first `k` calls to `next`, oldest first. -/
def lwOutputs (weight : List Nat) : Nat → List (Option (List Nat))
  | 0 => []
  | k + 1 => lwOutputs weight k ++ [(lwNext weight (lwStateIter weight (lwInit weight) k)).1]

/-- `LatticeWords::new`: reject weights that are not weakly decreasing, then
trim trailing zero parts. -/
def latticeWordsNew (weight : List Nat) : Except String (List Nat) :=
  if (weight.zip weight.tail).any (fun p => p.1 < p.2) then
    Except.error "weight is not a partition"
  else
    Except.ok ((weight.reverse.dropWhile fun x => x == 0).reverse)

/-- Accumulated subweight counts: the effect of the `subweight[first] += 1`
updates for each consumed symbol of a list. -/
def accum (s : List Nat) (u : List Nat) : List Nat :=
  u.foldl (fun t e => t.set e (t.getD e 0 + 1)) s

/-- `KeepsDec c w`: starting from base counts `c`, after every prefix of `w`
the combined symbol counts are weakly decreasing along consecutive symbols.
`KeepsDec (fun _ => 0) w` is the ballot property of a word whose minimum
symbol is `0`. -/
def KeepsDec (c : Nat → Nat) (w : List Nat) : Prop :=
  ∀ k v, c (v + 1) + ((w.take k).count (v + 1)) ≤ c v + ((w.take k).count v)

/-- Overwrites recorded by the promotion scan, lowest promoted row first:
position `ps[i]` receives the symbol `r + i`. -/
def fireWriteAux (r : Nat) : List Nat → List Nat → List Nat
  | z, [] => z
  | z, p :: rest => fireWriteAux (r + 1) (z.set p r) rest

/-- Candidate demotion point in a promoted word: position `q` holds the
symbol `r` and the length-`q` prefix holds exactly one more `r - 1` than
`r`. -/
def GoodPos (o : List Nat) (r q : Nat) : Prop :=
  o.getD q 0 = r ∧ (o.take q).count (r - 1) = (o.take q).count r + 1

/-- The demotion reading of a promoted word: each listed position is the
first candidate at or after the previous one, for the rows `r`, `r + 1`,
…. -/
def DemotionSeq (o : List Nat) : Nat → Nat → List Nat → Prop
  | _, _, [] => True
  | r, lo, p :: rest =>
      lo ≤ p ∧ GoodPos o r p ∧ (∀ q, lo ≤ q → q < p → ¬ GoodPos o r q) ∧
      DemotionSeq o (r + 1) (p + 1) rest

/-- Specification of the promotion scan on the unprocessed prefix `z`: `ps`
lists the overwrite positions, lowest promoted row first; each listed
position holds the symbol one below its row, the prefix counts of those two
symbols balance there, and a strict count gap separates them across the
stage that follows the position. -/
def ScanSpec (mn : Nat) (z : List Nat) (ps : List Nat) : Prop :=
  List.Pairwise (· < ·) ps ∧
  (∀ p ∈ ps, p < z.length) ∧
  (∀ i, i < ps.length → z.getD (ps.getD i 0) 0 = mn + i ∧
    (z.take (ps.getD i 0)).count (mn + i)
      = (z.take (ps.getD i 0)).count (mn + i + 1) + (if i = 0 then 1 else 0)) ∧
  (∀ i q, i < ps.length → ps.getD i 0 < q → q ≤ ps.getD (i + 1) z.length →
    (z.take q).count (mn + i + 1) + (if i = 0 then 1 else 0) < (z.take q).count (mn + i))

/-- One promotion step as a total function; a failing step keeps the word. -/
def promoteStep (u : List Nat) : List Nat :=
  match promotion u with
  | Except.ok o => o
  | Except.error _ => u

/-- `k` promotion steps as a total function. -/
def promoteIter : Nat → List Nat → List Nat
  | 0, u => u
  | k + 1, u => promoteIter k (promoteStep u)

/-- Applying `promotion()` `k` times in sequence, stopping at the first
failure. -/
def promotionIterate : Nat → List Nat → Except String (List Nat)
  | 0, u => Except.ok u
  | k + 1, u =>
    match promotion u with
    | Except.ok o => promotionIterate k o
    | Except.error msg => Except.error msg

/-- Base-`B + 1` digit encoding of a word, for the finiteness argument. -/
def encNat (B : Nat) (l : List Nat) : Nat :=
  l.foldr (fun e a => e + (B + 1) * a) 0

/-- The finite family of accepted words sharing the length and the content
of `w`. -/
def SameFamily (w u : List Nat) : Prop :=
  isLatticeWord u = true ∧ u.length = w.length ∧ ∀ r, u.count r = w.count r

/-!  ### Theorems -/

/-- C3: the enumerator built from weight `[3,2]` yields exactly, in order,
`[0,1,0,1,0]`, `[0,0,1,1,0]`, `[0,1,0,0,1]`, `[0,0,1,0,1]`, `[0,0,0,1,1]`,
and then reports end-of-sequence. -/
theorem lattice_words_weight_3_2_enumeration :
    latticeWordsNew [3, 2] = Except.ok [3, 2] ∧
    lwOutputs [3, 2] 6 =
      [some [0, 1, 0, 1, 0], some [0, 0, 1, 1, 0], some [0, 1, 0, 0, 1],
       some [0, 0, 1, 0, 1], some [0, 0, 0, 1, 1], none] := by
  constructor <;> rfl

/-- C4: promoting `[0,0,1,0,1,2,2,1,0,2,1,2]` once yields
`[0,0,0,1,0,1,2,2,1,1,2,2]`, and promoting that result yields
`[0,1,0,0,1,0,1,2,2,2,1,2]`. -/
theorem promotion_round_trip_example :
    promotion [0, 0, 1, 0, 1, 2, 2, 1, 0, 2, 1, 2] =
      Except.ok [0, 0, 0, 1, 0, 1, 2, 2, 1, 1, 2, 2] ∧
    promotion [0, 0, 0, 1, 0, 1, 2, 2, 1, 1, 2, 2] =
      Except.ok [0, 1, 0, 0, 1, 0, 1, 2, 2, 2, 1, 2] := by
  constructor <;> rfl

/-- C6: `tableau_cyclic_descents` on `[0,0,1,0,1,2,2,1,0,2,1,2]` yields
exactly `[2,4,5,9,11]`, and on `[1,1,1,2,1,2,3,3,2,2,3,3]` yields exactly
`[3,5,6,10,12]`. -/
theorem tableau_cyclic_descents_examples :
    tableauCyclicDescents [0, 0, 1, 0, 1, 2, 2, 1, 0, 2, 1, 2] =
      some (Except.ok [2, 4, 5, 9, 11]) ∧
    tableauCyclicDescents [1, 1, 1, 2, 1, 2, 3, 3, 2, 2, 3, 3] =
      some (Except.ok [3, 5, 6, 10, 12]) := by
  constructor <;> rfl

/-- C9: on the empty word `tableau_cyclic_descents` reaches the
out-of-bounds `word[0]` access inside the rectangularity check (modelled as
`none`, i.e. neither a result nor the `NotRectangular` error), while
`promotion` handles the empty word before that check and returns it
unchanged. -/
theorem tableau_cyclic_descents_empty_panics :
    tableauCyclicDescents [] = none ∧ isRectangle? [] = none ∧
    promotion [] = Except.ok [] := by
  exact ⟨rfl, rfl, rfl⟩

/-- A call of `next` that yields nothing leaves the iterator state
unchanged: the `None` return happens before any buffer is written. -/
theorem lwNext_none_state (weight : List Nat) (s : LWState)
    (h : (lwNext weight s).1 = none) : (lwNext weight s).2 = s := by
  by_cases hfp : s.firstPass
  · simp [lwNext, hfp] at h
  · rcases hd : findFirstDescent (List.replicate weight.sum 0) (enumPairs s.current)
      with _ | ⟨fd, sub⟩
    · simp [lwNext, hfp, hd]
    · simp [lwNext, hfp, hd] at h

/-- C8: exhaustion of the streaming enumerator is permanent — once a call to
`next` reports end-of-sequence, every later call (after any number `k` of
further calls) also reports end-of-sequence. -/
theorem lattice_words_exhaustion_permanent (weight : List Nat) (s : LWState)
    (h : (lwNext weight s).1 = none) (k : Nat) :
    (lwNext weight (lwStateIter weight s k)).1 = none := by
  induction k with
  | zero => simpa [lwStateIter] using h
  | succ k ih =>
    have hfix : (lwNext weight (lwStateIter weight s k)).2 = lwStateIter weight s k :=
      lwNext_none_state _ _ ih
    simpa [lwStateIter, hfix] using ih

/-- Witness for C8 at weight `[1]` and the state holding the word `[0]`. -/
theorem lattice_words_exhaustion_permanent_witness :
    (lwNext [1] ⟨false, [0]⟩).1 = none ∧
    (lwNext [1] (lwStateIter [1] ⟨false, [0]⟩ 3)).1 = none :=
  ⟨by decide, lattice_words_exhaustion_permanent [1] ⟨false, [0]⟩ (by decide) 3⟩

/-- The enumerated-pair stream lists `(k + i, word[i], word[i+1])` for
`i < word.length - 1`. -/
theorem enumPairsAux_eq (w : List Nat) (k : Nat) :
    enumPairsAux k w =
      (List.range (w.length - 1)).map fun i => (k + i, w.getD i 0, w.getD (i + 1) 0) := by
  induction w generalizing k with
  | nil => simp [enumPairsAux]
  | cons a rest ih =>
    cases rest with
    | nil => simp [enumPairsAux]
    | cons b rest2 =>
      rw [enumPairsAux, ih]
      show _ = (List.range (rest2.length + 1)).map _
      rw [List.range_succ_eq_map, List.map_cons, List.map_map]
      refine congrArg₂ _ (by simp) ?_
      refine List.map_congr_left fun i _ => ?_
      simp only [Function.comp, List.getD_cons_succ, Prod.mk.injEq, Nat.succ_eq_add_one,
        and_true, true_and, eq_self_iff_true]
      omega

/-- Mapping over a filtered list is a `filterMap`. -/
theorem filter_map_as_filterMap {α β : Type} (p : α → Bool) (f : α → β) (l : List α) :
    (l.filter p).map f = l.filterMap fun a => if p a then some (f a) else none := by
  induction l with
  | nil => rfl
  | cons a l ih => by_cases h : p a <;> simp [h, ih]

/-- `ascents()` lists exactly the positions `i+1` with `word[i] < word[i+1]`,
in increasing order of `i`. -/
theorem ascents_eq_filter (w : List Nat) :
    ascents w = ((List.range (w.length - 1)).filter fun i =>
      decide (w.getD i 0 < w.getD (i + 1) 0)).map fun i => i + 1 := by
  rw [ascents, scentPositions, enumPairs, enumPairsAux_eq, List.filterMap_map,
    filter_map_as_filterMap]
  congr 1
  funext i
  simp [Function.comp, Nat.compare_eq_gt]

/-- C1: `major_index()` is the sum of the positions emitted by `ascents()`,
which are exactly the 1-based positions `i+1` with `word[i] < word[i+1]`. -/
theorem major_index_is_sum_of_ascents (w : List Nat) :
    majorIndex w = (ascents w).sum ∧
    ascents w = ((List.range (w.length - 1)).filter fun i =>
      decide (w.getD i 0 < w.getD (i + 1) 0)).map fun i => i + 1 := by
  refine ⟨?_, ascents_eq_filter w⟩
  rw [majorIndex]
  have hfold : ∀ (l : List Nat) (n : Nat), l.foldl (fun acc x => acc + x) n = n + l.sum := by
    intro l
    induction l with
    | nil => simp
    | cons a l ih => intro n; simp [ih, Nat.add_assoc]
  simpa using hfold (ascents w) 0

/-- Incrementing one slot preserves "weakly decreasing along consecutive
slots", provided the incremented slot still respects its left neighbour. -/
theorem bump_keeps_dec (c : Nat → Nat) (v : Nat)
    (hinv : ∀ i, 0 < i → c i ≤ c (i - 1))
    (hok : 0 < v → bump c v v ≤ bump c v (v - 1)) :
    ∀ i, 0 < i → bump c v i ≤ bump c v (i - 1) := by
  intro i hi
  by_cases h1 : i = v
  · subst h1; exact hok hi
  · have hbi : bump c v i = c i := by simp [bump, h1]
    by_cases h2 : i - 1 = v
    · have hb2 : bump c v (i - 1) = c v + 1 := by simp [bump, h2]
      rw [hbi, hb2, ← h2]
      have := hinv i hi
      omega
    · have hb2 : bump c v (i - 1) = c (i - 1) := by simp [bump, h2]
      rw [hbi, hb2]
      exact hinv i hi

/-- Accounting step: consuming symbol `e` moves one unit from the head count
into the shifted counter slot `e - mn`. -/
theorem bump_count_step (c : Nat → Nat) (mn e i : Nat) (hemn : mn ≤ e) (t : List Nat) :
    c i + (e :: t).count (mn + i) = bump c (e - mn) i + t.count (mn + i) := by
  by_cases h : e = mn + i
  · have he : e - mn = i := by omega
    have h1 : bump c (e - mn) i = c i + 1 := by rw [he]; simp [bump]
    have h2 : (e :: t).count (mn + i) = t.count (mn + i) + 1 := by
      simp [List.count_cons, h]
    omega
  · have hi : ¬ i = e - mn := by omega
    have h1 : bump c (e - mn) i = c i := by simp [bump, hi]
    have h2 : (e :: t).count (mn + i) = t.count (mn + i) := by
      simp [List.count_cons]
      omega
    omega

/-- Invariant of the validation loop: if every incremental check passes, the
shifted counts of every prefix stay weakly decreasing along consecutive
slots. -/
theorem newLoop_take_counts (l : List Nat) :
    ∀ (c : Nat → Nat) (mn : Nat),
      (∀ e ∈ l, mn ≤ e) →
      (∀ i, 0 < i → c i ≤ c (i - 1)) →
      newLoop mn c l = true →
      ∀ k i, 0 < i →
        c i + (l.take k).count (mn + i) ≤ c (i - 1) + (l.take k).count (mn + i - 1) := by
  induction l with
  | nil =>
    intro c mn _ hinv _ k i hi
    simpa using hinv i hi
  | cons e rest ih =>
    intro c mn hmem hinv htrue k i hi
    have hemn : mn ≤ e := hmem e (List.mem_cons_self _ _)
    rw [newLoop] at htrue
    by_cases hcond : 0 < e - mn ∧ bump c (e - mn) (e - mn - 1) < bump c (e - mn) (e - mn)
    · rw [if_pos hcond] at htrue
      exact absurd htrue (by simp)
    · rw [if_neg hcond] at htrue
      push_neg at hcond
      have hinv1 := bump_keeps_dec c (e - mn) hinv hcond
      have hmem1 : ∀ x ∈ rest, mn ≤ x := fun x hx => hmem x (List.mem_cons_of_mem _ hx)
      cases k with
      | zero => simpa using hinv i hi
      | succ k =>
        have hih := ih (bump c (e - mn)) mn hmem1 hinv1 htrue k i hi
        have heq : mn + i - 1 = mn + (i - 1) := by omega
        rw [heq] at hih ⊢
        have h1 := bump_count_step c mn e i hemn (rest.take k)
        have h2 := bump_count_step c mn e (i - 1) hemn (rest.take k)
        rw [List.take_succ_cons]
        omega

/-- The running minimum fold is a lower bound for its seed and for every
element of the list. -/
theorem foldl_min_le (rest : List Nat) :
    ∀ a : Nat, rest.foldl Nat.min a ≤ a ∧ ∀ e ∈ rest, rest.foldl Nat.min a ≤ e := by
  induction rest with
  | nil => simp
  | cons b t ih =>
    intro a
    refine ⟨le_trans (ih (Nat.min a b)).1 (Nat.min_le_left _ _), ?_⟩
    intro e he
    rcases List.mem_cons.mp he with rfl | he'
    · exact le_trans (ih (Nat.min a e)).1 (Nat.min_le_right _ _)
    · exact (ih (Nat.min a b)).2 e he'

/-- `listMinD` bounds every element of the word from below. -/
theorem listMinD_le_mem (w : List Nat) : ∀ e ∈ w, listMinD w ≤ e := by
  cases w with
  | nil => simp
  | cons a rest =>
    intro e he
    rcases List.mem_cons.mp he with rfl | he'
    · exact (foldl_min_le rest e).1
    · exact (foldl_min_le rest a).2 e he'

/-- C2 (amended): for every accepted word, every prefix and every symbol `v`
present in that prefix that exceeds the word's minimum symbol (i.e. whose
shifted value is positive) satisfies `count(v) ≤ count(v-1)` on that prefix. -/
theorem ballot_property_of_accepted (w : List Nat) (h : isLatticeWord w = true)
    (k v : Nat) (hpresent : v ∈ w.take k) (hv : listMinD w < v) :
    (w.take k).count v ≤ (w.take k).count (v - 1) := by
  cases w with
  | nil => simp at hpresent
  | cons a rest =>
    have hmem : ∀ e ∈ a :: rest, listMinD (a :: rest) ≤ e := listMinD_le_mem _
    have htrue : newLoop (listMinD (a :: rest)) (fun _ => 0) (a :: rest) = true := h
    have hkey := newLoop_take_counts (a :: rest) (fun _ => 0) (listMinD (a :: rest))
      hmem (by simp) htrue k (v - listMinD (a :: rest)) (by omega)
    have h1 : listMinD (a :: rest) + (v - listMinD (a :: rest)) = v := by omega
    rw [h1] at hkey
    simpa using hkey

/-- Witness for C2 (amended) at the word `[0, 1]`, prefix length 2, symbol 1. -/
theorem ballot_property_of_accepted_witness :
    isLatticeWord [0, 1] = true ∧ (1 : Nat) ∈ [0, 1].take 2 ∧ listMinD [0, 1] < 1 ∧
    ([0, 1].take 2).count 1 ≤ ([0, 1].take 2).count (1 - 1) :=
  ⟨by decide, by decide, by decide,
    ballot_property_of_accepted [0, 1] (by decide) 2 1 (by decide) (by decide)⟩

/-- C2 counterexample: `[1]` is accepted by `LatticeWord::new`, yet its full
prefix contains the symbol `1 > 0` with raw counts `count 1 = 1 > 0 = count 0`;
the validation shifts counts by the minimum symbol, so the raw-count reading
of the ballot property fails. -/
theorem ballot_property_raw_counterexample :
    isLatticeWord [1] = true ∧ (1 : Nat) ∈ [1].take 1 ∧ 0 < (1 : Nat) ∧
    ¬ ([1].take 1).count 1 ≤ ([1].take 1).count (1 - 1) := by
  decide

/-- The running maximum fold is an upper bound for its seed and for every
element of the list. -/
theorem foldl_max_ge (rest : List Nat) :
    ∀ a : Nat, a ≤ rest.foldl Nat.max a ∧ ∀ e ∈ rest, e ≤ rest.foldl Nat.max a := by
  induction rest with
  | nil => simp
  | cons b t ih =>
    intro a
    refine ⟨le_trans (Nat.le_max_left a b) (ih (Nat.max a b)).1, ?_⟩
    intro e he
    rcases List.mem_cons.mp he with rfl | he'
    · exact le_trans (Nat.le_max_right a e) (ih (Nat.max a e)).1
    · exact (ih (Nat.max a b)).2 e he'

/-- `listMaxD` bounds every element of the word from above. -/
theorem le_listMaxD_mem (w : List Nat) : ∀ e ∈ w, e ≤ listMaxD w := by
  cases w with
  | nil => simp
  | cons a rest =>
    intro e he
    rcases List.mem_cons.mp he with rfl | he'
    · exact (foldl_max_ge rest e).1
    · exact (foldl_max_ge rest a).2 e he'

/-- The `is_rectangle` scan computes "count of the first symbol equals count
of the overall maximum": the state `(mx, minc, maxc)` always holds the
running maximum of the processed part `p`, the count of `mn` in `p`, and the
count of that running maximum in `p`. -/
theorem isRectangleLoop_spec (l : List Nat) :
    ∀ (p : List Nat) (mn mx minc maxc : Nat),
      mx = p.foldl Nat.max mn →
      minc = p.count mn →
      maxc = p.count mx →
      isRectangleLoop mn mx minc maxc l
        = ((p ++ l).count mn == (p ++ l).count ((p ++ l).foldl Nat.max mn)) := by
  induction l with
  | nil =>
    intro p mn mx minc maxc hmx hminc hmaxc
    subst hmx hminc hmaxc
    simp [isRectangleLoop]
  | cons e rest ih =>
    intro p mn mx minc maxc hmx hminc hmaxc
    have hub := foldl_max_ge p mn
    have hmn_mx : mn ≤ mx := hmx ▸ (hub.1)
    have hmem_mx : ∀ x ∈ p, x ≤ mx := fun x hx => hmx ▸ (hub.2 x hx)
    rw [isRectangleLoop]
    rw [show p ++ e :: rest = (p ++ [e]) ++ rest by simp]
    apply ih (p ++ [e]) mn
    · -- running maximum after consuming e
      rw [List.foldl_append, ← hmx]
      by_cases hlt : mx < e
      · simp [hlt, Nat.max_eq_right (le_of_lt hlt)]
      · simp [hlt, Nat.max_eq_left (not_lt.mp hlt)]
    · -- count of mn after consuming e
      by_cases hemn : e = mn
      · subst hemn
        simp [List.count_append, hminc]
      · have hmne : ¬ mn = e := fun hh => hemn hh.symm
        simp [List.count_append, List.count_cons, hminc, hemn, hmne]
    · -- count of the (new) running maximum after consuming e
      by_cases hlt : mx < e
      · have hmx1 : (if mx < e then e else mx) = e := if_pos hlt
        have hcnt : p.count e = 0 := by
          rw [List.count_eq_zero]
          intro hmem
          exact absurd (hmem_mx e hmem) (by omega)
        rw [hmx1]
        simp [hlt, List.count_append, hcnt]
      · have hmx1 : (if mx < e then e else mx) = mx := if_neg hlt
        rw [hmx1]
        by_cases hemx : e = mx
        · subst hemx
          simp [hlt, List.count_append, hmaxc]
        · have hmxe : ¬ mx = e := fun hh => hemx hh.symm
          simp [hlt, List.count_append, List.count_cons, hmaxc, hemx, hmxe]

/-- An accepted word's counts are weakly decreasing above the minimum
symbol: `count v ≤ count (v-1)` whenever `min < v`. -/
theorem counts_dec_of_accepted (w : List Nat) (h : isLatticeWord w = true)
    (v : Nat) (hv : listMinD w < v) : w.count v ≤ w.count (v - 1) := by
  cases w with
  | nil => simp
  | cons a rest =>
    have hmem := listMinD_le_mem (a :: rest)
    have htrue : newLoop (listMinD (a :: rest)) (fun _ => 0) (a :: rest) = true := h
    have hkey := newLoop_take_counts (a :: rest) (fun _ => 0) (listMinD (a :: rest))
      hmem (by simp) htrue (a :: rest).length (v - listMinD (a :: rest)) (by omega)
    have h1 : listMinD (a :: rest) + (v - listMinD (a :: rest)) = v := by omega
    rw [List.take_length, h1] at hkey
    simpa using hkey

/-- Counts of an accepted word are antitone on symbols above the minimum. -/
theorem count_chain_of_accepted (w : List Nat) (h : isLatticeWord w = true)
    (a b : Nat) (hma : listMinD w ≤ a) (hab : a ≤ b) : w.count b ≤ w.count a := by
  induction b, hab using Nat.le_induction with
  | base => exact le_rfl
  | succ b hab ih =>
    have hdec := counts_dec_of_accepted w h (b + 1) (by omega)
    simpa using le_trans hdec ih

/-- An accepted non-empty word starts with its minimum symbol. -/
theorem head_eq_min (a : Nat) (rest : List Nat) (h : isLatticeWord (a :: rest) = true) :
    a = listMinD (a :: rest) := by
  have hle : listMinD (a :: rest) ≤ a := listMinD_le_mem _ a (List.mem_cons_self _ _)
  by_contra hne
  have hpos : 0 < a - listMinD (a :: rest) := by omega
  have htrue : newLoop (listMinD (a :: rest)) (fun _ => 0) (a :: rest) = true := h
  rw [newLoop] at htrue
  have hcond : 0 < a - listMinD (a :: rest) ∧
      bump (fun _ => 0) (a - listMinD (a :: rest)) (a - listMinD (a :: rest) - 1) <
        bump (fun _ => 0) (a - listMinD (a :: rest)) (a - listMinD (a :: rest)) := by
    refine ⟨hpos, ?_⟩
    have h1 : bump (fun _ => 0) (a - listMinD (a :: rest)) (a - listMinD (a :: rest) - 1) = 0 := by
      have hne1 : ¬ (a - listMinD (a :: rest) - 1 = a - listMinD (a :: rest)) := by omega
      simp [bump, hne1]
    have h2 : bump (fun _ => 0) (a - listMinD (a :: rest)) (a - listMinD (a :: rest)) = 1 := by
      simp [bump]
    omega
  rw [if_pos hcond] at htrue
  exact absurd htrue (by simp)

/-- C5: for every non-empty accepted word, `promotion` and
`tableau_cyclic_descents` return the `NotRectangular` error exactly when the
content is not rectangular, and the implemented check (final count of the
minimum symbol equals final count of the maximum symbol) holds iff every
part of the content is equal. -/
theorem not_rectangular_error_iff (w : List Nat) (hw : w ≠ [])
    (h : isLatticeWord w = true) :
    ((promotion w = Except.error "only implemented for rectangular shapes") ↔
      ¬ (∀ v, listMinD w ≤ v → v ≤ listMaxD w → w.count v = w.count (listMinD w))) ∧
    ((tableauCyclicDescents w = some (Except.error "only implemented for rectangular shapes")) ↔
      ¬ (∀ v, listMinD w ≤ v → v ≤ listMaxD w → w.count v = w.count (listMinD w))) ∧
    ((isRectangleLoop (w.headD 0) (w.headD 0) 0 0 w = true) ↔
      (∀ v, listMinD w ≤ v → v ≤ listMaxD w → w.count v = w.count (listMinD w))) := by
  match w, hw with
  | a :: rest, _ =>
    have hamn : a = listMinD (a :: rest) := head_eq_min a rest h
    have hspec := isRectangleLoop_spec (a :: rest) [] a a 0 0 (by simp) (by simp) (by simp)
    rw [List.nil_append] at hspec
    have hfold : (a :: rest).foldl Nat.max a = listMaxD (a :: rest) := by
      simp [listMaxD, List.foldl_cons, Nat.max_self]
    rw [hfold] at hspec
    have hmem_a : a ∈ a :: rest := List.mem_cons_self _ _
    have hmn_mx : listMinD (a :: rest) ≤ listMaxD (a :: rest) :=
      le_trans (listMinD_le_mem _ a hmem_a) (le_listMaxD_mem _ a hmem_a)
    have hca : List.count a (a :: rest) = List.count (listMinD (a :: rest)) (a :: rest) := by
      rw [← hamn]
    have hkey : isRectangleLoop a a 0 0 (a :: rest) = true ↔
        (∀ v, listMinD (a :: rest) ≤ v → v ≤ listMaxD (a :: rest) →
          (a :: rest).count v = (a :: rest).count (listMinD (a :: rest))) := by
      rw [hspec, beq_iff_eq, hca]
      constructor
      · intro heq v hv1 hv2
        have hle1 : (a :: rest).count v ≤ (a :: rest).count (listMinD (a :: rest)) :=
          count_chain_of_accepted _ h (listMinD (a :: rest)) v le_rfl hv1
        have hle2 : (a :: rest).count (listMaxD (a :: rest)) ≤ (a :: rest).count v :=
          count_chain_of_accepted _ h v (listMaxD (a :: rest)) hv1 hv2
        omega
      · intro hrect
        exact (hrect (listMaxD (a :: rest)) hmn_mx le_rfl).symm
    by_cases hc : isRectangleLoop a a 0 0 (a :: rest) = true
    · have hrect := hkey.mp hc
      have hprom : ∃ r, promotion (a :: rest) = Except.ok r := by
        rw [promotion]
        simp [hc]
      have htcd : ∃ r, tableauCyclicDescents (a :: rest) = some (Except.ok r) := by
        rw [tableauCyclicDescents]
        simp [hc]
      rcases hprom with ⟨r1, hr1⟩
      rcases htcd with ⟨r2, hr2⟩
      refine ⟨?_, ?_, by simpa using hkey⟩
      · rw [hr1]
        exact iff_of_false (by simp) (not_not_intro hrect)
      · rw [hr2]
        exact iff_of_false (by simp) (not_not_intro hrect)
    · have hrect : ¬ (∀ v, listMinD (a :: rest) ≤ v → v ≤ listMaxD (a :: rest) →
          (a :: rest).count v = (a :: rest).count (listMinD (a :: rest))) :=
        fun hr => hc (hkey.mpr hr)
      have hcf : isRectangleLoop a a 0 0 (a :: rest) = false := by
        cases hcc : isRectangleLoop a a 0 0 (a :: rest) with
        | false => rfl
        | true => exact absurd hcc hc
      have hprom : promotion (a :: rest) =
          Except.error "only implemented for rectangular shapes" := by
        rw [promotion]
        simp [hcf]
      have htcd : tableauCyclicDescents (a :: rest) =
          some (Except.error "only implemented for rectangular shapes") := by
        rw [tableauCyclicDescents]
        simp [hcf]
      refine ⟨?_, ?_, by simpa using hkey⟩
      · rw [hprom]
        exact iff_of_true rfl hrect
      · rw [htcd]
        exact iff_of_true rfl hrect

/-- Witness for C5 at the accepted word `[0, 0, 1, 0]` of non-rectangular
content `[3, 1]`. -/
theorem not_rectangular_error_iff_witness :
    isLatticeWord [0, 0, 1, 0] = true ∧
    (((promotion [0, 0, 1, 0] = Except.error "only implemented for rectangular shapes") ↔
      ¬ (∀ v, listMinD [0, 0, 1, 0] ≤ v → v ≤ listMaxD [0, 0, 1, 0] →
        List.count v [0, 0, 1, 0] = List.count (listMinD [0, 0, 1, 0]) [0, 0, 1, 0])) ∧
    (((tableauCyclicDescents [0, 0, 1, 0] =
        some (Except.error "only implemented for rectangular shapes")) ↔
      ¬ (∀ v, listMinD [0, 0, 1, 0] ≤ v → v ≤ listMaxD [0, 0, 1, 0] →
        List.count v [0, 0, 1, 0] = List.count (listMinD [0, 0, 1, 0]) [0, 0, 1, 0])) ∧
    ((isRectangleLoop (List.headD [0, 0, 1, 0] 0) (List.headD [0, 0, 1, 0] 0) 0 0
        [0, 0, 1, 0] = true) ↔
      (∀ v, listMinD [0, 0, 1, 0] ≤ v → v ≤ listMaxD [0, 0, 1, 0] →
        List.count v [0, 0, 1, 0] = List.count (listMinD [0, 0, 1, 0]) [0, 0, 1, 0])))) :=
  ⟨by decide, not_rectangular_error_iff [0, 0, 1, 0] (by decide) (by decide)⟩

/-!  Canonical starting word: length, content, and ballot property. -/

/-- Count of a symbol in `range n`. -/
theorem count_range (n v : Nat) : (List.range n).count v = if v < n then 1 else 0 := by
  induction n with
  | zero => simp
  | succ n ih =>
    rw [List.range_succ]
    simp [List.count_append, ih, List.count_cons]
    by_cases h1 : v < n
    · simp [h1, show v < n + 1 by omega, show ¬ n = v by omega]
    · by_cases h2 : n = v
      · simp [h1, h2]
      · simp [h1, h2, show ¬ v < n + 1 by omega]

/-- The empty word keeps decreasing counts. -/
theorem keepsDec_nil (c : Nat → Nat) (hdec : ∀ v, c (v + 1) ≤ c v) : KeepsDec c [] := by
  intro k v
  simpa using hdec v

/-- `KeepsDec` at the empty prefix: the base counts are decreasing. -/
theorem keepsDec_base (c : Nat → Nat) (w : List Nat) (h : KeepsDec c w) :
    ∀ v, c (v + 1) ≤ c v := by
  intro v
  simpa using h 0 v

/-- `KeepsDec` composes over concatenation. -/
theorem keepsDec_append (c : Nat → Nat) (u w : List Nat)
    (hu : KeepsDec c u) (hw : KeepsDec (fun v => c v + u.count v) w) :
    KeepsDec c (u ++ w) := by
  intro k v
  rw [List.take_append_eq_append_take]
  simp only [List.count_append]
  by_cases hk : k ≤ u.length
  · have hz : k - u.length = 0 := by omega
    rw [hz]
    simpa using hu k v
  · have hall : u.take k = u := List.take_of_length_le (by omega)
    rw [hall]
    have := hw (k - u.length) v
    simp only at this
    omega

/-- `KeepsDec` restricts to a suffix, shifting the base counts by the
consumed part's counts. -/
theorem keepsDec_append_right (c : Nat → Nat) (u w : List Nat)
    (h : KeepsDec c (u ++ w)) : KeepsDec (fun v => c v + u.count v) w := by
  intro k v
  have hinst := h (u.length + k) v
  rw [List.take_append_eq_append_take] at hinst
  have h1 : u.take (u.length + k) = u := List.take_of_length_le (by omega)
  have h2 : u.length + k - u.length = k := by omega
  rw [h1, h2] at hinst
  simp only [List.count_append] at hinst
  simp only
  omega

/-- A single column `range h` keeps decreasing counts. -/
theorem keepsDec_range (c : Nat → Nat) (h : Nat) (hdec : ∀ v, c (v + 1) ≤ c v) :
    KeepsDec c (List.range h) := by
  intro k v
  rw [List.take_range, count_range, count_range]
  have := hdec v
  by_cases h1 : v + 1 < min k h
  · simp [h1, show v < min k h by omega]
    omega
  · by_cases h2 : v < min k h
    · simp [h1, h2]; omega
    · simp [h1, h2]
      omega

/-- Unfolding one copy out of a flattened replicate. -/
theorem flatten_replicate_succ {α : Type} (n : Nat) (u : List α) :
    (List.replicate (n + 1) u).flatten = u ++ (List.replicate n u).flatten := by
  simp [List.replicate_succ]

/-- Count in a flattened replicate. -/
theorem count_flatten_replicate (n : Nat) (u : List Nat) (v : Nat) :
    ((List.replicate n u).flatten).count v = n * u.count v := by
  induction n with
  | zero => simp
  | succ n ih =>
    rw [flatten_replicate_succ]
    simp [List.count_append, ih, Nat.succ_mul, Nat.add_comm]

/-- Length of a flattened replicate. -/
theorem length_flatten_replicate {α : Type} (n : Nat) (u : List α) :
    ((List.replicate n u).flatten).length = n * u.length := by
  induction n with
  | zero => simp
  | succ n ih =>
    rw [flatten_replicate_succ]
    simp [ih, Nat.succ_mul, Nat.add_comm]

/-- A block of identical columns keeps decreasing counts. -/
theorem keepsDec_flatten_replicate (c : Nat → Nat) (n h : Nat)
    (hdec : ∀ v, c (v + 1) ≤ c v) :
    KeepsDec c ((List.replicate n (List.range h)).flatten) := by
  induction n generalizing c with
  | zero => exact keepsDec_nil c hdec
  | succ n ih =>
    rw [flatten_replicate_succ]
    refine keepsDec_append c _ _ (keepsDec_range c h hdec) ?_
    refine ih _ ?_
    intro v
    simp only [count_range]
    have := hdec v
    by_cases h1 : v + 1 < h
    · simp [h1, show v < h by omega]
      omega
    · by_cases h2 : v < h
      · simp [h1, h2]; omega
      · simp [h1, h2]
        omega

/-- The write sequence of `init_starting_word` keeps decreasing counts, for
any driving weight. -/
theorem keepsDec_swAux (l : List Nat) :
    ∀ (lastRow height : Nat) (c : Nat → Nat), (∀ v, c (v + 1) ≤ c v) →
      KeepsDec c (swAux lastRow height l) := by
  induction l with
  | nil =>
    intro _ _ c hdec
    exact keepsDec_nil c hdec
  | cons r rest ih =>
    intro lastRow height c hdec
    rw [swAux]
    refine keepsDec_append c _ _ (keepsDec_flatten_replicate c _ _ hdec) ?_
    refine ih _ _ _ ?_
    intro v
    simp only [count_flatten_replicate, count_range]
    have := hdec v
    by_cases h1 : v + 1 < height
    · simp [h1, show v < height by omega]
      omega
    · by_cases h2 : v < height
      · simp [h1, h2]; omega
      · simp [h1, h2]
        omega

/-- The ballot property of the canonical starting word. -/
theorem keepsDec_startingWordWrites (ws : List Nat) :
    KeepsDec (fun _ => 0) (startingWordWrites ws) :=
  keepsDec_swAux ws.reverse 0 ws.length (fun _ => 0) (fun _ => le_rfl)

/-- Length of the write sequence, for a weakly increasing chain of parts. -/
theorem length_swAux (l : List Nat) :
    ∀ lastRow : Nat, List.Chain (· ≤ ·) lastRow l →
      (swAux lastRow l.length l).length + lastRow * l.length = l.sum := by
  induction l with
  | nil => simp [swAux]
  | cons r rest ih =>
    intro lastRow hchain
    rw [List.chain_cons] at hchain
    obtain ⟨hle, hchain2⟩ := hchain
    have hih := ih r hchain2
    show (swAux lastRow (rest.length + 1) (r :: rest)).length + lastRow * (rest.length + 1)
      = (r :: rest).sum
    rw [swAux, List.length_append, length_flatten_replicate, List.length_range,
      Nat.add_sub_cancel, List.sum_cons]
    have hmul : (r - lastRow) * (rest.length + 1) + lastRow * (rest.length + 1)
        = r * (rest.length + 1) := by
      rw [← Nat.add_mul, Nat.sub_add_cancel hle]
    have hmul2 : r * (rest.length + 1) = r * rest.length + r := Nat.mul_succ r rest.length
    omega

/-- Count of the write sequence, for a weakly increasing chain of parts. -/
theorem count_swAux (l : List Nat) :
    ∀ (lastRow v : Nat), List.Chain (· ≤ ·) lastRow l →
      (swAux lastRow l.length l).count v + (if v < l.length then lastRow else 0)
        = if v < l.length then l.getD (l.length - 1 - v) 0 else 0 := by
  induction l with
  | nil =>
    intro lastRow v _
    simp [swAux]
  | cons r rest ih =>
    intro lastRow v hchain
    rw [List.chain_cons] at hchain
    obtain ⟨hle, hchain2⟩ := hchain
    have hih := ih r v hchain2
    show (swAux lastRow (rest.length + 1) (r :: rest)).count v
        + (if v < (r :: rest).length then lastRow else 0)
      = if v < (r :: rest).length then (r :: rest).getD ((r :: rest).length - 1 - v) 0 else 0
    rw [swAux, List.count_append, count_flatten_replicate, count_range,
      Nat.add_sub_cancel, List.length_cons]
    by_cases h1 : v < rest.length
    · have hidx : rest.length + 1 - 1 - v = (rest.length - 1 - v) + 1 := by omega
      rw [if_pos (show v < rest.length + 1 by omega), if_pos (show v < rest.length + 1 by omega),
        hidx, List.getD_cons_succ]
      rw [if_pos h1, if_pos h1] at hih
      simp only [if_pos (show v < rest.length + 1 by omega), Nat.mul_one]
      omega
    · by_cases h2 : v = rest.length
      · rw [if_neg h1, if_neg h1] at hih
        have hidx : rest.length + 1 - 1 - v = 0 := by omega
        rw [if_pos (show v < rest.length + 1 by omega), if_pos (show v < rest.length + 1 by omega),
          hidx, List.getD_cons_zero]
        simp only [if_pos (show v < rest.length + 1 by omega), Nat.mul_one]
        omega
      · rw [if_neg h1, if_neg h1] at hih
        rw [if_neg (show ¬ v < rest.length + 1 by omega),
          if_neg (show ¬ v < rest.length + 1 by omega)]
        simp only [if_neg (show ¬ v < rest.length + 1 by omega), Nat.mul_zero]
        omega

/-- Weakly increasing chains from `0` exist for any `Chain'`-increasing list
of naturals. -/
theorem chain_zero_of_chain' (l : List Nat) (h : List.Chain' (· ≤ ·) l) :
    List.Chain (· ≤ ·) 0 l := by
  cases l with
  | nil => exact List.Chain.nil
  | cons a t => exact List.Chain.cons (Nat.zero_le a) h

/-- Length of the canonical starting word, for a weakly decreasing weight. -/
theorem length_startingWordWrites (ws : List Nat) (hdec : List.Chain' (· ≥ ·) ws) :
    (startingWordWrites ws).length = ws.sum := by
  have hrev : List.Chain' (· ≤ ·) ws.reverse := by
    rw [List.chain'_reverse]
    exact hdec
  have hchain := chain_zero_of_chain' ws.reverse hrev
  have hlen := length_swAux ws.reverse 0 hchain
  rw [startingWordWrites, show ws.length = ws.reverse.length by simp]
  simpa [List.sum_reverse] using hlen

/-- Content of the canonical starting word, for a weakly decreasing weight:
symbol `v` occurs exactly `ws.getD v 0` times. -/
theorem count_startingWordWrites (ws : List Nat) (hdec : List.Chain' (· ≥ ·) ws) (v : Nat) :
    (startingWordWrites ws).count v = ws.getD v 0 := by
  have hrev : List.Chain' (· ≤ ·) ws.reverse := by
    rw [List.chain'_reverse]
    exact hdec
  have hchain := chain_zero_of_chain' ws.reverse hrev
  have hcnt := count_swAux ws.reverse 0 v hchain
  rw [startingWordWrites, show ws.length = ws.reverse.length by simp]
  by_cases hv : v < ws.length
  · have hv2 : v < ws.reverse.length := by simpa using hv
    rw [if_pos hv2, if_pos hv2] at hcnt
    have hgd : ws.reverse.getD (ws.reverse.length - 1 - v) 0 = ws.getD v 0 := by
      rw [List.getD_eq_getElem?_getD, List.getD_eq_getElem?_getD]
      rw [List.getElem?_eq_getElem (by simp; omega), List.getElem?_eq_getElem hv]
      simp [List.getElem_reverse]
      congr 1
      omega
    rw [hgd] at hcnt
    omega
  · have hv2 : ¬ v < ws.reverse.length := by simpa using hv
    rw [if_neg hv2, if_neg hv2] at hcnt
    rw [List.getD_eq_default _ _ (by omega)]
    omega

/-!  Subweight accumulation, first-descent scan and reverse lookup. -/

/-- Setting a slot in range and reading it back. -/
theorem getD_set_eq (s : List Nat) (e x : Nat) (h : e < s.length) :
    (s.set e x).getD e 0 = x := by
  rw [List.getD_eq_getElem?_getD, List.getElem?_set]
  simp [h]

/-- Setting one slot leaves other slots unchanged. -/
theorem getD_set_ne (s : List Nat) (e i x : Nat) (h : ¬ e = i) :
    (s.set e x).getD i 0 = s.getD i 0 := by
  rw [List.getD_eq_getElem?_getD, List.getElem?_set, if_neg h, ← List.getD_eq_getElem?_getD]

/-- Accumulating a concatenation. -/
theorem accum_append (s u1 u2 : List Nat) :
    accum s (u1 ++ u2) = accum (accum s u1) u2 := by
  simp [accum, List.foldl_append]

/-- Accumulation preserves the buffer length. -/
theorem length_accum (u : List Nat) : ∀ s : List Nat, (accum s u).length = s.length := by
  induction u with
  | nil => intro s; rfl
  | cons e u ih =>
    intro s
    show (accum (s.set e (s.getD e 0 + 1)) u).length = s.length
    rw [ih]
    simp

/-- Accumulation adds the consumed symbols' counts slotwise, provided every
consumed symbol is in range. -/
theorem getD_accum (u : List Nat) : ∀ (s : List Nat) (i : Nat),
    (∀ e ∈ u, e < s.length) →
    (accum s u).getD i 0 = s.getD i 0 + u.count i := by
  induction u with
  | nil =>
    intro s i _
    simp [accum]
  | cons e u ih =>
    intro s i hmem
    have hel : e < s.length := hmem e (List.mem_cons_self _ _)
    show (accum (s.set e (s.getD e 0 + 1)) u).getD i 0 = _
    rw [ih _ i (fun x hx => by
      rw [List.length_set]
      exact hmem x (List.mem_cons_of_mem _ hx))]
    by_cases hie : e = i
    · subst hie
      rw [getD_set_eq s e _ hel]
      simp [List.count_cons]
      omega
    · rw [getD_set_ne s e i _ hie]
      simp [List.count_cons, hie]

/-- A weakly increasing stretch of the word produces no descent. -/
theorem findFirstDescent_none_of_chain (w : List Nat) :
    ∀ (j : Nat) (sub : List Nat), List.Chain' (· ≤ ·) w →
      findFirstDescent sub (enumPairsAux j w) = none := by
  induction w with
  | nil => intro j sub _; rfl
  | cons a t ih =>
    intro j sub hch
    cases t with
    | nil => rfl
    | cons b t2 =>
      rw [enumPairsAux, findFirstDescent]
      have hab : a ≤ b := (List.chain'_cons.mp hch).1
      rw [if_neg (by omega)]
      exact ih (j + 1) _ (List.chain'_cons.mp hch).2

/-- The first-descent scan on a word that splits as an increasing part
`u ++ [x]` followed by a strict drop to `y`: it stops at position
`u.length + 1` with the counts of `u ++ [x]` accumulated. -/
theorem findFirstDescent_some_of_split (u : List Nat) :
    ∀ (j : Nat) (sub : List Nat) (x y : Nat) (t : List Nat),
      List.Chain' (· ≤ ·) (u ++ [x]) → y < x →
      findFirstDescent sub (enumPairsAux j (u ++ x :: y :: t))
        = some (j + u.length + 1, accum sub (u ++ [x])) := by
  induction u with
  | nil =>
    intro j sub x y t _ hyx
    rw [List.nil_append, enumPairsAux, findFirstDescent, if_pos hyx]
    rfl
  | cons a u ih =>
    intro j sub x y t hch hyx
    cases u with
    | nil =>
      have hax : a ≤ x := by simpa using hch
      rw [List.cons_append, List.nil_append, enumPairsAux, findFirstDescent,
        if_neg (show ¬ x < a by omega)]
      have hrec := ih (j + 1) (sub.set a (sub.getD a 0 + 1)) x y t (by simp) hyx
      rw [List.nil_append] at hrec
      rw [hrec]
      simp only [Option.some.injEq, Prod.mk.injEq, List.length_cons, List.length_nil]
      constructor
      · trivial
      · rfl
    | cons b u2 =>
      have hch2 : a ≤ b ∧ List.Chain' (· ≤ ·) (b :: (u2 ++ [x])) := by simpa using hch
      rw [List.cons_append, List.cons_append, enumPairsAux, findFirstDescent,
        if_neg (show ¬ b < a by have := hch2.1; omega)]
      have hrec := ih (j + 1) (sub.set a (sub.getD a 0 + 1)) x y t
        (by simpa using hch2.2) hyx
      rw [List.cons_append] at hrec
      rw [hrec]
      simp only [Option.some.injEq, Prod.mk.injEq, List.length_cons]
      constructor
      · omega
      · rfl

/-- Any word is weakly increasing or splits at its first descent. -/
theorem chain_or_split (w : List Nat) :
    List.Chain' (· ≤ ·) w ∨
      ∃ u x y t, w = u ++ x :: y :: t ∧ List.Chain' (· ≤ ·) (u ++ [x]) ∧ y < x := by
  induction w with
  | nil => exact Or.inl List.chain'_nil
  | cons a w ih =>
    cases w with
    | nil => exact Or.inl (by simp)
    | cons b t =>
      by_cases hab : b < a
      · exact Or.inr ⟨[], a, b, t, by simp, by simp, hab⟩
      · rcases ih with hch | ⟨u, x, y, t2, heq, hch2, hyx⟩
        · exact Or.inl (List.chain'_cons.mpr ⟨by omega, hch⟩)
        · refine Or.inr ⟨a :: u, x, y, t2, by rw [List.cons_append, ← heq], ?_, hyx⟩
          cases u with
          | nil =>
            have hbx : b = x := by simpa using congrArg (fun l => l.headD 0) heq
            show List.Chain' (· ≤ ·) ((a :: []) ++ [x])
            simp only [List.cons_append, List.nil_append]
            simpa using (by omega : a ≤ x)
          | cons c u3 =>
            have hbc : b = c := by simpa using congrArg (fun l => l.headD 0) heq
            show List.Chain' (· ≤ ·) ((a :: c :: u3) ++ [x])
            simp only [List.cons_append]
            refine List.chain'_cons.mpr ⟨by omega, ?_⟩
            simpa using hch2

/-- Reverse lookup over `range n`: if some in-range slot holds `target`, the
scan finds the highest such slot. -/
theorem revFindAux (n : Nat) : ∀ (sub : List Nat) (target i0 : Nat),
    i0 < n → sub.getD i0 0 = target →
    ∃ r, ((List.range n).reverse.find? fun i => sub.getD i 0 == target) = some r ∧
      sub.getD r 0 = target ∧ i0 ≤ r ∧ r < n ∧
      ∀ j, r < j → j < n → sub.getD j 0 ≠ target := by
  induction n with
  | zero =>
    intro sub target i0 h
    omega
  | succ n ih =>
    intro sub target i0 hi0 htar
    rw [List.range_succ, List.reverse_append, List.reverse_singleton, List.singleton_append]
    by_cases hn : sub.getD n 0 = target
    · refine ⟨n, ?_, hn, by omega, by omega, fun j hj1 hj2 => by omega⟩
      rw [List.find?_cons_of_pos _ (by simpa using hn)]
    · by_cases hi0n : i0 = n
      · exact absurd htar (hi0n ▸ hn)
      · obtain ⟨r, hfind, hr1, hr2, hr3, hmax⟩ := ih sub target i0 (by omega) htar
        refine ⟨r, ?_, hr1, hr2, by omega, ?_⟩
        · rw [List.find?_cons_of_neg _ (by simpa using hn), hfind]
        · intro j hj1 hj2
          by_cases hjn : j = n
          · exact hjn ▸ hn
          · exact hmax j hj1 (by omega)

/-- Specification of `revFindEq` when the target value occurs in range. -/
theorem revFindEq_spec (sub : List Nat) (target i0 : Nat) (hi0 : i0 < sub.length)
    (htar : sub.getD i0 0 = target) :
    sub.getD (revFindEq sub target) 0 = target ∧ i0 ≤ revFindEq sub target ∧
    revFindEq sub target < sub.length ∧
    ∀ j, revFindEq sub target < j → j < sub.length → sub.getD j 0 ≠ target := by
  obtain ⟨r, hfind, h1, h2, h3, h4⟩ := revFindAux sub.length sub target i0 hi0 htar
  rw [revFindEq, hfind]
  exact ⟨h1, h2, h3, h4⟩

/-!  Small utilities for the successor-step invariant. -/

/-- A zero-initialised buffer reads as zero everywhere. -/
theorem getD_replicate_zero (n i : Nat) : (List.replicate n (0 : Nat)).getD i 0 = 0 := by
  rw [List.getD_eq_getElem?_getD, List.getElem?_replicate]
  by_cases h : i < n <;> simp [h]

/-- Accumulated subweight counts read back as the prefix's symbol counts. -/
theorem getD_accum_replicate (n : Nat) (u : List Nat) (i : Nat)
    (hmem : ∀ e ∈ u, e < n) :
    (accum (List.replicate n 0) u).getD i 0 = u.count i := by
  rw [getD_accum u (List.replicate n 0) i (by simpa using hmem)]
  simp [getD_replicate_zero]

/-- Replacing a slot shifts the sum by the difference of the values. -/
theorem sum_set_add (L : List Nat) : ∀ (i x : Nat), i < L.length →
    (L.set i x).sum + L.getD i 0 = L.sum + x := by
  induction L with
  | nil => intro i x h; simp at h
  | cons a tl ih =>
    intro i x h
    cases i with
    | zero => simp [List.set_cons_zero]; omega
    | succ i =>
      rw [List.set_cons_succ]
      simp only [List.sum_cons, List.getD_cons_succ]
      have := ih i x (by simpa using h)
      omega

/-- Each accumulated symbol adds one to the subweight total. -/
theorem sum_accum (u : List Nat) : ∀ s : List Nat, (∀ e ∈ u, e < s.length) →
    (accum s u).sum = s.sum + u.length := by
  induction u with
  | nil => intro s _; simp [accum]
  | cons e u ih =>
    intro s hmem
    have hel : e < s.length := hmem e (List.mem_cons_self _ _)
    show (accum (s.set e (s.getD e 0 + 1)) u).sum = _
    rw [ih _ (fun x hx => by
      rw [List.length_set]
      exact hmem x (List.mem_cons_of_mem _ hx))]
    have := sum_set_add s e (s.getD e 0 + 1) hel
    simp only [List.length_cons]
    omega

/-- A pointwise weakly decreasing counter is antitone. -/
theorem dec_chain (c : Nat → Nat) (hdec : ∀ v, c (v + 1) ≤ c v) :
    ∀ a b, a ≤ b → c b ≤ c a := by
  intro a b hab
  induction b, hab using Nat.le_induction with
  | base => exact le_rfl
  | succ b hab ih => exact le_trans (hdec b) ih

/-- A `≤`-chain bounds all its members by the seed. -/
theorem chain_le_mem (l : List Nat) : ∀ a : Nat, List.Chain (· ≤ ·) a l → ∀ e ∈ l, a ≤ e := by
  induction l with
  | nil => intro a _ e he; simp at he
  | cons b t ih =>
    intro a hch e he
    rw [List.chain_cons] at hch
    rcases List.mem_cons.mp he with rfl | he'
    · exact hch.1
    · exact le_trans hch.1 (ih b hch.2 e he')

/-- A list of positive parts is at least as long as its sum is large. -/
theorem length_le_sum (L : List Nat) (hpos : ∀ p ∈ L, 0 < p) : L.length ≤ L.sum := by
  induction L with
  | nil => simp
  | cons a t ih =>
    simp only [List.length_cons, List.sum_cons]
    have ha := hpos a (List.mem_cons_self _ _)
    have := ih (fun p hp => hpos p (List.mem_cons_of_mem _ hp))
    omega

/-- Reading the symbol just after the increasing prefix `u ++ [x]`. -/
theorem getD_after_front (u : List Nat) (x y : Nat) (t : List Nat) :
    (u ++ x :: y :: t).getD (u.length + 1) 0 = y := by
  rw [List.getD_eq_getElem?_getD, List.getElem?_append_right (by omega)]
  simp [Nat.add_sub_cancel_left]

/-- Taking the increasing prefix back out of the split word. -/
theorem take_prefix_split (u : List Nat) (x b : Nat) (t : List Nat) :
    (u ++ x :: b :: t).take (u.length + 1) = u ++ [x] := by
  rw [List.take_append_eq_append_take, List.take_of_length_le (by omega)]
  congr 1
  rw [show u.length + 1 - u.length = 1 by omega]
  rfl

/-- Dropping the prefix and the moved position out of the split word. -/
theorem drop_suffix_split (u : List Nat) (x b : Nat) (t : List Nat) :
    (u ++ x :: b :: t).drop (u.length + 1) = b :: t := by
  rw [List.drop_append 1]
  rfl

/-- Overwriting the symbol just after the increasing prefix. -/
theorem set_after_front (u : List Nat) (x y b : Nat) (t : List Nat) :
    (u ++ x :: y :: t).set (u.length + 1) b = u ++ x :: b :: t := by
  rw [List.set_append_right _ _ (by omega)]
  congr 1
  rw [show u.length + 1 - u.length = 1 by omega]
  rfl

/-- Converse of the validation invariant: if every prefix keeps shifted
counts weakly decreasing, the validation loop succeeds. -/
theorem newLoop_true_of_counts (l : List Nat) :
    ∀ (c : Nat → Nat) (mn : Nat),
      (∀ e ∈ l, mn ≤ e) →
      (∀ k i, 0 < i →
        c i + ((l.take k).count (mn + i)) ≤ c (i - 1) + ((l.take k).count (mn + i - 1))) →
      newLoop mn c l = true := by
  induction l with
  | nil => intro c mn _ _; rfl
  | cons e rest ih =>
    intro c mn hmem hcnt
    have hemn : mn ≤ e := hmem e (List.mem_cons_self _ _)
    rw [newLoop]
    have hcond : ¬ (0 < e - mn ∧ bump c (e - mn) (e - mn - 1) < bump c (e - mn) (e - mn)) := by
      rintro ⟨hpos, hlt⟩
      have h1 := hcnt 1 (e - mn) hpos
      rw [List.take_succ_cons, List.take_zero] at h1
      have he : mn + (e - mn) = e := by omega
      have hc1 : List.count (mn + (e - mn)) [e] = 1 := by
        rw [he]
        simp
      have hc2 : List.count (mn + (e - mn) - 1) [e] = 0 := by
        rw [List.count_eq_zero]
        intro hmem2
        simp at hmem2
        omega
      rw [hc1, hc2] at h1
      have hb1 : bump c (e - mn) (e - mn) = c (e - mn) + 1 := by simp [bump]
      have hb2 : bump c (e - mn) (e - mn - 1) = c (e - mn - 1) := by
        simp [bump, show ¬ (e - mn - 1 = e - mn) by omega]
      omega
    rw [if_neg hcond]
    refine ih (bump c (e - mn)) mn (fun x hx => hmem x (List.mem_cons_of_mem _ hx)) ?_
    intro k i hi
    have hinst := hcnt (k + 1) i hi
    rw [List.take_succ_cons] at hinst
    have heq : mn + i - 1 = mn + (i - 1) := by omega
    rw [heq] at hinst ⊢
    have h1 := bump_count_step c mn e i hemn (rest.take k)
    have h2 := bump_count_step c mn e (i - 1) hemn (rest.take k)
    omega

/-- A word with the ballot property whose minimum symbol is `0` is accepted
by `LatticeWord::new`. -/
theorem accepted_of_keepsDec (w : List Nat) (hbal : KeepsDec (fun _ => 0) w)
    (hmin : listMinD w = 0) : isLatticeWord w = true := by
  cases w with
  | nil => rfl
  | cons a rest =>
    show newLoop (listMinD (a :: rest)) (fun _ => 0) (a :: rest) = true
    rw [hmin]
    refine newLoop_true_of_counts (a :: rest) (fun _ => 0) 0 (fun e _ => Nat.zero_le e) ?_
    intro k i hi
    have hinst := hbal k (i - 1)
    have heq : (i - 1) + 1 = i := by omega
    rw [heq] at hinst
    simpa using hinst

/-- A weight accepted by `LatticeWords::new` and returned unchanged is
weakly decreasing with all parts positive. -/
theorem latticeWordsNew_ok_facts (weight : List Nat)
    (hval : latticeWordsNew weight = Except.ok weight) :
    List.Chain' (· ≥ ·) weight ∧ ∀ p ∈ weight, 0 < p := by
  rw [latticeWordsNew] at hval
  split at hval
  · exact absurd hval (by simp)
  · rename_i hany
    have hany2 : ∀ q ∈ weight.zip weight.tail, ¬ (q.1 < q.2) := by
      intro q hq hlt
      exact hany (List.any_eq_true.mpr ⟨q, hq, by simpa using hlt⟩)
    have hdrop : (weight.reverse.dropWhile fun x => x == 0).reverse = weight := by
      simpa using hval
    have hchain : List.Chain' (· ≥ ·) weight := by
      rw [List.chain'_iff_get]
      intro i h
      have hizip : i < (weight.zip weight.tail).length := by
        simp only [List.length_zip, List.length_tail]
        omega
      have hmemz := List.getElem_mem hizip
      rw [List.getElem_zip] at hmemz
      have hle := hany2 _ hmemz
      simp only at hle
      rw [List.getElem_tail] at hle
      simp only [List.get_eq_getElem]
      omega
    refine ⟨hchain, ?_⟩
    intro p hp
    have hrev : weight.reverse.dropWhile (fun x => x == 0) = weight.reverse := by
      have := congrArg List.reverse hdrop
      simpa using this
    rcases hrev0 : weight.reverse with _ | ⟨h0, tl⟩
    · have hwnil : weight = [] := by
        have := congrArg List.reverse hrev0
        simpa using this
      subst hwnil
      simp at hp
    · rw [hrev0] at hrev
      have hne := List.dropWhile_eq_self_iff.mp hrev (by simp)
      have hh0 : 0 < h0 := by
        simp at hne
        omega
      have hrevchain : List.Chain' (· ≤ ·) weight.reverse := by
        refine List.chain'_reverse.mpr (List.Chain'.imp ?_ hchain)
        intro a b hab
        exact hab
      rw [hrev0] at hrevchain
      have hmem2 : p ∈ h0 :: tl := by
        rw [← hrev0]
        simpa using hp
      rcases List.mem_cons.mp hmem2 with rfl | hmem3
      · omega
      · have := chain_le_mem tl h0 hrevchain p hmem3
        omega

/-- `count` over a cons, with the equality test oriented as the counted
value against the head. -/
theorem count_cons_ite (a b : Nat) (l : List Nat) :
    List.count a (b :: l) = List.count a l + if a = b then 1 else 0 := by
  rw [List.count_cons]
  by_cases h : a = b
  · simp [h]
  · have h2 : ¬ b = a := fun hh => h hh.symm
    simp [h, h2]

/-- In-range `getD` is `getElem`. -/
theorem getD_eq_getElem_zero (l : List Nat) (i : Nat) (h : i < l.length) :
    l.getD i 0 = l[i] := by
  rw [List.getD_eq_getElem?_getD, List.getElem?_eq_getElem h]
  rfl

/-- One successor step of the streaming enumerator, on a current word split
at its first descent, yields a word that again has the ballot property, the
same content as the weight, and the same length. -/
theorem lwNext_step (weight u : List Nat) (x y : Nat) (t : List Nat)
    (hchx : List.Chain' (· ≤ ·) (u ++ [x])) (hyx : y < x)
    (hbal : KeepsDec (fun _ => 0) (u ++ x :: y :: t))
    (hcnt : ∀ i, (u ++ x :: y :: t).count i = weight.getD i 0)
    (hlen : (u ++ x :: y :: t).length = weight.sum)
    (hwlen : weight.length ≤ weight.sum) :
    ∃ w2, lwNext weight ⟨false, u ++ x :: y :: t⟩ = (some w2, ⟨false, w2⟩) ∧
      KeepsDec (fun _ => 0) w2 ∧ (∀ i, w2.count i = weight.getD i 0) ∧
      w2.length = weight.sum := by
  -- symbols are in range
  have hmemlt : ∀ e ∈ u ++ x :: y :: t, e < weight.length := by
    intro e he
    by_contra hge
    push_neg at hge
    have h0 : weight.getD e 0 = 0 := List.getD_eq_default _ _ hge
    have hc := hcnt e
    rw [h0] at hc
    have hpos := List.count_pos_iff.mpr he
    omega
  have hmemn : ∀ e ∈ u ++ x :: y :: t, e < weight.sum :=
    fun e he => lt_of_lt_of_le (hmemlt e he) hwlen
  have hxw : x ∈ u ++ x :: y :: t := by simp
  have hxn : x < weight.sum := hmemn x hxw
  have hyn : y < weight.sum := by omega
  have hmemux : ∀ e ∈ u ++ [x], e < weight.sum := by
    intro e he
    rcases List.mem_append.mp he with h1 | h1
    · exact hmemn e (List.mem_append.mpr (Or.inl h1))
    · simp at h1
      subst h1
      exact hxn
  have hfd := findFirstDescent_some_of_split u 0 (List.replicate weight.sum 0) x y t hchx hyx
  have hfd' : findFirstDescent (List.replicate weight.sum 0) (enumPairs (u ++ x :: y :: t))
      = some (u.length + 1, accum (List.replicate weight.sum 0) (u ++ [x])) := by
    simpa [enumPairs] using hfd
  -- the accumulated subweight
  have hsubAlen : (accum (List.replicate weight.sum 0) (u ++ [x])).length = weight.sum := by
    rw [length_accum]
    simp
  have hgetA : ∀ i, (accum (List.replicate weight.sum 0) (u ++ [x])).getD i 0
      = (u ++ [x]).count i := fun i => getD_accum_replicate _ _ i hmemux
  -- the prefix counts are weakly decreasing
  have hcdec : ∀ v, (u ++ [x]).count (v + 1) ≤ (u ++ [x]).count v := by
    intro v
    have hb := hbal (u.length + 1) v
    rw [take_prefix_split] at hb
    simpa using hb
  have hcx1 : 1 ≤ (u ++ [x]).count x := List.count_pos_iff.mpr (by simp)
  have hcy1 : (u ++ [x]).count x ≤ (u ++ [x]).count (y + 1) :=
    dec_chain (fun v => (u ++ [x]).count v) hcdec (y + 1) x (by omega)
  have htargetpos : 1 ≤ (accum (List.replicate weight.sum 0) (u ++ [x])).getD (y + 1) 0 := by
    rw [hgetA]
    omega
  have hrf := revFindEq_spec (accum (List.replicate weight.sum 0) (u ++ [x]))
    ((accum (List.replicate weight.sum 0) (u ++ [x])).getD (y + 1) 0) (y + 1)
    (by rw [hsubAlen]; omega) rfl
  obtain ⟨hrf1, hrf2, hrf3, hrf4⟩ := hrf
  -- abbreviations (kept as plain terms throughout)
  generalize hnridef : revFindEq (accum (List.replicate weight.sum 0) (u ++ [x]))
      ((accum (List.replicate weight.sum 0) (u ++ [x])).getD (y + 1) 0) = nri at *
  have hynri : ¬ y = nri := by omega
  have hcnri : (u ++ [x]).count nri
      = (accum (List.replicate weight.sum 0) (u ++ [x])).getD (y + 1) 0 := by
    rw [← hgetA nri]
    exact hrf1
  have hnriltn : nri < weight.sum := by rw [hsubAlen] at hrf3; exact hrf3
  -- the adjusted subweight, slotwise
  have hsub2 : ∀ i,
      (((accum (List.replicate weight.sum 0) (u ++ [x])).set y
          ((accum (List.replicate weight.sum 0) (u ++ [x])).getD y 0 + 1)).set nri
        (((accum (List.replicate weight.sum 0) (u ++ [x])).set y
          ((accum (List.replicate weight.sum 0) (u ++ [x])).getD y 0 + 1)).getD nri 0
            - 1)).getD i 0 + (if i = nri then 1 else 0)
      = (u ++ [x]).count i + (if i = y then 1 else 0) := by
    intro i
    have hs1len : ((accum (List.replicate weight.sum 0) (u ++ [x])).set y
        ((accum (List.replicate weight.sum 0) (u ++ [x])).getD y 0 + 1)).length
        = weight.sum := by
      rw [List.length_set, hsubAlen]
    have hs1nri : ((accum (List.replicate weight.sum 0) (u ++ [x])).set y
        ((accum (List.replicate weight.sum 0) (u ++ [x])).getD y 0 + 1)).getD nri 0
        = (u ++ [x]).count nri := by
      rw [getD_set_ne _ _ _ _ hynri]
      exact hgetA nri
    by_cases h1 : i = nri
    · have h2 : ¬ i = y := fun hh => hynri (hh.symm.trans h1)
      rw [if_pos h1, if_neg h2, h1]
      rw [getD_set_eq _ _ _ (by rw [hs1len]; exact hnriltn), hs1nri]
      have := htargetpos
      omega
    · rw [if_neg h1, getD_set_ne _ _ _ _ (fun hh => h1 hh.symm)]
      by_cases h2 : i = y
      · rw [if_pos h2, h2]
        rw [getD_set_eq _ _ _ (by rw [hsubAlen]; exact hyn), hgetA]
      · rw [if_neg h2, getD_set_ne _ _ _ _ (fun hh => h2 hh.symm), hgetA]
  -- ballot constraint including the moved element
  have htk2 : (u ++ x :: y :: t).take (u.length + 2) = u ++ [x, y] := by
    rw [List.take_append_eq_append_take, List.take_of_length_le (by omega)]
    congr 1
    rw [show u.length + 2 - u.length = 2 by omega]
    rfl
  have hby2 : ∀ j, j + 1 = y → (u ++ [x]).count y + 1 ≤ (u ++ [x]).count j := by
    intro j hj
    have hb2 := hbal (u.length + 2) j
    rw [htk2] at hb2
    have hassoc : u ++ [x, y] = (u ++ [x]) ++ [y] := by simp
    rw [hj] at hb2
    have hc1 : (u ++ [x, y]).count y = (u ++ [x]).count y + 1 := by
      rw [hassoc, List.count_append]
      simp
    have hc2 : (u ++ [x, y]).count j = (u ++ [x]).count j := by
      rw [hassoc, List.count_append]
      have : List.count j [y] = 0 := by
        rw [List.count_eq_zero]
        intro hm
        simp at hm
        omega
      omega
    simp only at hb2
    omega
  -- maximality constraint one slot after the landing row
  have hnext : (u ++ [x]).count (nri + 1) + 1 ≤ (u ++ [x]).count nri := by
    by_cases hin : nri + 1 < weight.sum
    · have hne := hrf4 (nri + 1) (by omega) (by rw [hsubAlen]; exact hin)
      rw [hgetA (nri + 1)] at hne
      have hle := hcdec nri
      omega
    · have h0 : (u ++ [x]).count (nri + 1) = 0 := by
        rw [List.count_eq_zero]
        intro hm
        exact absurd (hmemux _ hm) (by omega)
      omega
  -- the adjusted subweight is weakly decreasing slotwise
  have hsub2dec : ∀ i,
      (((accum (List.replicate weight.sum 0) (u ++ [x])).set y
          ((accum (List.replicate weight.sum 0) (u ++ [x])).getD y 0 + 1)).set nri
        (((accum (List.replicate weight.sum 0) (u ++ [x])).set y
          ((accum (List.replicate weight.sum 0) (u ++ [x])).getD y 0 + 1)).getD nri 0
            - 1)).getD (i + 1) 0
      ≤ (((accum (List.replicate weight.sum 0) (u ++ [x])).set y
          ((accum (List.replicate weight.sum 0) (u ++ [x])).getD y 0 + 1)).set nri
        (((accum (List.replicate weight.sum 0) (u ++ [x])).set y
          ((accum (List.replicate weight.sum 0) (u ++ [x])).getD y 0 + 1)).getD nri 0
            - 1)).getD i 0 := by
    intro i
    have ha := hsub2 i
    have hb := hsub2 (i + 1)
    have hdeci := hcdec i
    by_cases h3 : i + 1 = nri
    · have h4 : ¬ i = nri := by omega
      by_cases h2 : i = y
      · have h1 : ¬ i + 1 = y := by omega
        rw [if_pos h3, if_neg h1] at hb
        rw [if_neg h4, if_pos h2] at ha
        omega
      · have h1 : ¬ i + 1 = y := by omega
        rw [if_pos h3, if_neg h1] at hb
        rw [if_neg h4, if_neg h2] at ha
        omega
    · by_cases h4 : i = nri
      · have h1 : ¬ i + 1 = y := by omega
        have h2 : ¬ i = y := by omega
        rw [if_neg h3, if_neg h1] at hb
        rw [if_pos h4, if_neg h2] at ha
        have := hnext
        rw [← h4] at this
        omega
      · by_cases h1 : i + 1 = y
        · have h2 : ¬ i = y := by omega
          rw [if_neg h3, if_pos h1] at hb
          rw [if_neg h4, if_neg h2] at ha
          have := hby2 i h1
          rw [← h1] at this
          omega
        · by_cases h2 : i = y
          · rw [if_neg h3, if_neg h1] at hb
            rw [if_neg h4, if_pos h2] at ha
            omega
          · rw [if_neg h3, if_neg h1] at hb
            rw [if_neg h4, if_neg h2] at ha
            omega
  -- abbreviate the three buffers
  set subA := accum (List.replicate weight.sum 0) (u ++ [x]) with hsubAdef
  set sub1 := subA.set y (subA.getD y 0 + 1) with hsub1def
  set sub2 := sub1.set nri (sub1.getD nri 0 - 1) with hsub2def
  have hs1len : sub1.length = weight.sum := by
    rw [hsub1def, List.length_set, hsubAlen]
  have hs1nri : sub1.getD nri 0 = (u ++ [x]).count nri := by
    rw [hsub1def, getD_set_ne _ _ _ _ hynri]
    exact hgetA nri
  have hsub2len : sub2.length = weight.sum := by
    rw [hsub2def, List.length_set, hs1len]
  have hsub2chain : List.Chain' (· ≥ ·) sub2 := by
    rw [List.chain'_iff_get]
    intro i h
    simp only [List.get_eq_getElem]
    have hd := hsub2dec i
    have hb1 : i < sub2.length := by omega
    have hb2 : i + 1 < sub2.length := by omega
    rw [getD_eq_getElem_zero _ _ hb2, getD_eq_getElem_zero _ _ hb1] at hd
    exact hd
  have h1cnri : 1 ≤ (u ++ [x]).count nri := by
    rw [hcnri]
    exact htargetpos
  have hglen : (startingWordWrites sub2).length = u.length + 1 := by
    rw [length_startingWordWrites _ hsub2chain]
    have hsumA : subA.sum = u.length + 1 := by
      rw [hsubAdef, sum_accum _ _ (by simpa using hmemux)]
      simp
    have hsum1 := sum_set_add subA y (subA.getD y 0 + 1) (by rw [hsubAlen]; exact hyn)
    have hsum2 := sum_set_add sub1 nri (sub1.getD nri 0 - 1) (by rw [hs1len]; exact hnriltn)
    rw [← hsub1def] at hsum1
    rw [← hsub2def] at hsum2
    rw [hs1nri] at hsum2
    omega
  have hgcnt : ∀ v, (startingWordWrites sub2).count v = sub2.getD v 0 :=
    fun v => count_startingWordWrites sub2 hsub2chain v
  have hw' : u ++ x :: y :: t = (u ++ [x]) ++ y :: t := by simp
  have hold := keepsDec_append_right (fun _ => 0) (u ++ [x]) (y :: t) (hw' ▸ hbal)
  refine ⟨startingWordWrites sub2 ++ nri :: t, ?_, ?_, ?_, ?_⟩
  · -- the step equation itself
    show lwNext weight ⟨false, u ++ x :: y :: t⟩ = _
    simp only [lwNext]
    simp only [Bool.false_eq_true, if_false]
    rw [hfd']
    simp only
    rw [getD_after_front]
    rw [hnridef, ← hsub1def, ← hsub2def]
    rw [set_after_front, take_prefix_split, drop_suffix_split]
    simp only [initStartingWord]
    rw [hglen,
      List.drop_eq_nil_of_le (show (u ++ [x]).length ≤ u.length + 1 by simp),
      List.append_nil]
  · -- ballot property of the new word
    refine keepsDec_append _ _ _ (keepsDec_startingWordWrites sub2) ?_
    intro k v
    simp only
    rw [hgcnt v, hgcnt (v + 1)]
    cases k with
    | zero =>
      simp only [List.take_zero, List.count_nil]
      have := hsub2dec v
      omega
    | succ k =>
      rw [List.take_succ_cons]
      have hi := hold (k + 1) v
      rw [List.take_succ_cons] at hi
      simp only at hi
      rw [count_cons_ite, count_cons_ite] at hi
      rw [count_cons_ite, count_cons_ite]
      have ha := hsub2 v
      have hb := hsub2 (v + 1)
      omega
  · -- content preserved
    intro i
    rw [← hcnt i]
    rw [List.count_append, hgcnt i, count_cons_ite]
    conv_rhs => rw [hw']
    rw [List.count_append, count_cons_ite]
    have ha := hsub2 i
    omega
  · -- length preserved
    rw [List.length_append, hglen, ← hlen]
    simp [List.length_append]
    omega

/-- C10: every word yielded by the streaming enumerator (built through the
trusted `unchecked_new`) is accepted by `LatticeWord::new`, and its content
equals the validated weight. -/
theorem enumerated_words_valid (weight : List Nat)
    (hval : latticeWordsNew weight = Except.ok weight) (k : Nat) (w : List Nat)
    (hyield : (lwNext weight (lwStateIter weight (lwInit weight) k)).1 = some w) :
    isLatticeWord w = true ∧ ∀ i, w.count i = weight.getD i 0 := by
  obtain ⟨hdecW, hposW⟩ := latticeWordsNew_ok_facts weight hval
  have hwlen : weight.length ≤ weight.sum := length_le_sum weight hposW
  have hinit : initStartingWord (List.replicate weight.sum 0) weight
      = startingWordWrites weight := by
    simp only [initStartingWord]
    rw [length_startingWordWrites weight hdecW]
    rw [List.drop_eq_nil_of_le (by simp), List.append_nil]
  have hstep0 : lwNext weight (lwInit weight)
      = (some (startingWordWrites weight), ⟨false, startingWordWrites weight⟩) := by
    simp only [lwNext, lwInit]
    rw [if_pos trivial, hinit]
  have haccept : ∀ wc : List Nat, (∀ i, List.count i wc = weight.getD i 0) →
      KeepsDec (fun _ => 0) wc → wc.length = weight.sum → isLatticeWord wc = true := by
    intro wc hcc hbb hll
    cases wc with
    | nil => rfl
    | cons a r =>
      have hwne : weight ≠ [] := by
        intro h0
        rw [h0] at hll
        simp at hll
      have hw0 : 0 < weight.getD 0 0 := by
        rcases hW : weight with _ | ⟨w0, ws⟩
        · exact absurd hW hwne
        · have hmem : w0 ∈ weight := by rw [hW]; exact List.mem_cons_self _ _
          rw [List.getD_cons_zero]
          exact hposW w0 hmem
      have h0mem : (0 : Nat) ∈ a :: r := by
        rw [← List.count_pos_iff]
        rw [hcc 0]
        exact hw0
      have hmle := listMinD_le_mem (a :: r) 0 h0mem
      exact accepted_of_keepsDec (a :: r) hbb (by omega)
  have hInv : ∀ j, (lwStateIter weight (lwInit weight) j = lwInit weight) ∨
      ((lwStateIter weight (lwInit weight) j).firstPass = false ∧
       KeepsDec (fun _ => 0) (lwStateIter weight (lwInit weight) j).current ∧
       (∀ i, (lwStateIter weight (lwInit weight) j).current.count i = weight.getD i 0) ∧
       (lwStateIter weight (lwInit weight) j).current.length = weight.sum) := by
    intro j
    induction j with
    | zero => exact Or.inl rfl
    | succ j ih =>
      rw [lwStateIter]
      rcases ih with heq | ⟨hfp, hb, hc, hl⟩
      · rw [heq, hstep0]
        refine Or.inr ⟨rfl, keepsDec_startingWordWrites weight, ?_, ?_⟩
        · intro i
          exact count_startingWordWrites weight hdecW i
        · exact length_startingWordWrites weight hdecW
      · have hsk : lwStateIter weight (lwInit weight) j
            = ⟨false, (lwStateIter weight (lwInit weight) j).current⟩ := by
          cases hE : lwStateIter weight (lwInit weight) j with
          | mk fp cur =>
            rw [hE] at hfp
            simp only at hfp
            subst hfp
            rfl
        rcases chain_or_split (lwStateIter weight (lwInit weight) j).current with
          hch | ⟨u, x, y, t, hsplit, hchx, hyx⟩
        · have hn0 : findFirstDescent (List.replicate weight.sum 0)
              (enumPairs (lwStateIter weight (lwInit weight) j).current) = none :=
            findFirstDescent_none_of_chain _ 0 _ hch
          have hnone : (lwNext weight (lwStateIter weight (lwInit weight) j)).1 = none := by
            rw [hsk]
            simp only [lwNext]
            simp only [Bool.false_eq_true, if_false]
            rw [hn0]
          rw [lwNext_none_state weight _ hnone]
          exact Or.inr ⟨hfp, hb, hc, hl⟩
        · obtain ⟨w2, hw2eq, hw2b, hw2c, hw2l⟩ := lwNext_step weight u x y t hchx hyx
            (hsplit ▸ hb) (fun i => hsplit ▸ hc i) (hsplit ▸ hl) hwlen
          rw [hsk, hsplit, hw2eq]
          exact Or.inr ⟨rfl, hw2b, hw2c, hw2l⟩
  rcases hInv k with heq | ⟨hfp, hb, hc, hl⟩
  · rw [heq, hstep0] at hyield
    simp only [Option.some.injEq] at hyield
    subst hyield
    exact ⟨haccept _ (fun i => count_startingWordWrites weight hdecW i)
        (keepsDec_startingWordWrites weight) (length_startingWordWrites weight hdecW),
      fun i => count_startingWordWrites weight hdecW i⟩
  · have hsk : lwStateIter weight (lwInit weight) k
        = ⟨false, (lwStateIter weight (lwInit weight) k).current⟩ := by
      cases hE : lwStateIter weight (lwInit weight) k with
      | mk fp cur =>
        rw [hE] at hfp
        simp only at hfp
        subst hfp
        rfl
    rcases chain_or_split (lwStateIter weight (lwInit weight) k).current with
      hch | ⟨u, x, y, t, hsplit, hchx, hyx⟩
    · have hn0 : findFirstDescent (List.replicate weight.sum 0)
          (enumPairs (lwStateIter weight (lwInit weight) k).current) = none :=
        findFirstDescent_none_of_chain _ 0 _ hch
      have hnone : (lwNext weight (lwStateIter weight (lwInit weight) k)).1 = none := by
        rw [hsk]
        simp only [lwNext]
        simp only [Bool.false_eq_true, if_false]
        rw [hn0]
      rw [hnone] at hyield
      simp at hyield
    · obtain ⟨w2, hw2eq, hw2b, hw2c, hw2l⟩ := lwNext_step weight u x y t hchx hyx
        (hsplit ▸ hb) (fun i => hsplit ▸ hc i) (hsplit ▸ hl) hwlen
      rw [hsk, hsplit, hw2eq] at hyield
      simp only [Option.some.injEq] at hyield
      subst hyield
      exact ⟨haccept _ hw2c hw2b hw2l, hw2c⟩

/-- Witness for C10 at weight `[2, 1]` and the very first yielded word. -/
theorem enumerated_words_valid_witness :
    latticeWordsNew [2, 1] = Except.ok [2, 1] ∧
    (lwNext [2, 1] (lwStateIter [2, 1] (lwInit [2, 1]) 0)).1 = some [0, 1, 0] ∧
    (isLatticeWord [0, 1, 0] = true ∧
      ∀ i, List.count i [0, 1, 0] = List.getD [2, 1] i 0) :=
  ⟨rfl, rfl, enumerated_words_valid [2, 1] rfl 0 [0, 1, 0] rfl⟩

/-!  ### Promotion on rectangular contents: the scan as a list of overwrites -/

/-- `fireWriteAux` preserves the length of the buffer. -/
theorem fireWriteAux_length (ps : List Nat) : ∀ (r : Nat) (z : List Nat),
    (fireWriteAux r z ps).length = z.length := by
  induction ps with
  | nil => intro r z; rfl
  | cons p rest ih =>
    intro r z
    rw [fireWriteAux, ih, List.length_set]

/-- Writes inside the left part of an append act on the left part. -/
theorem fireWriteAux_append (ps : List Nat) : ∀ (r : Nat) (z t : List Nat),
    (∀ p ∈ ps, p < z.length) →
    fireWriteAux r (z ++ t) ps = fireWriteAux r z ps ++ t := by
  induction ps with
  | nil => intro r z t _; rfl
  | cons p rest ih =>
    intro r z t hbnd
    rw [fireWriteAux, fireWriteAux, List.set_append_left _ _ (hbnd p (by simp))]
    rw [ih (r + 1) (z.set p r) t]
    intro q hq
    rw [List.length_set]
    exact hbnd q (by simp [hq])

/-- Splitting the write list splits the writes. -/
theorem fireWriteAux_split (ps1 : List Nat) : ∀ (ps2 : List Nat) (r : Nat) (z : List Nat),
    fireWriteAux r z (ps1 ++ ps2)
      = fireWriteAux (r + ps1.length) (fireWriteAux r z ps1) ps2 := by
  induction ps1 with
  | nil => intro ps2 r z; simp [fireWriteAux]
  | cons p rest ih =>
    intro ps2 r z
    rw [List.cons_append, fireWriteAux, fireWriteAux, ih]
    have harith : r + 1 + rest.length = r + (p :: rest).length := by
      simp
      omega
    rw [harith]

/-- A write at a position not listed commutes out of the writes. -/
theorem fireWriteAux_set_comm (ps : List Nat) : ∀ (r : Nat) (z : List Nat) (p x : Nat),
    (∀ q ∈ ps, ¬ q = p) →
    fireWriteAux r (z.set p x) ps = (fireWriteAux r z ps).set p x := by
  induction ps with
  | nil => intro r z p x _; rfl
  | cons q rest ih =>
    intro r z p x hne
    have hpq : p ≠ q := fun h => hne q (by simp) h.symm
    rw [fireWriteAux, fireWriteAux, List.set_comm x r z hpq]
    exact ih (r + 1) (z.set q r) p x (fun q2 hq2 => hne q2 (by simp [hq2]))

/-- Reading an untouched position of the written buffer. -/
theorem fireWriteAux_getD_other (ps : List Nat) : ∀ (r : Nat) (z : List Nat) (q : Nat),
    (∀ p ∈ ps, ¬ p = q) →
    (fireWriteAux r z ps).getD q 0 = z.getD q 0 := by
  induction ps with
  | nil => intro r z q _; rfl
  | cons p rest ih =>
    intro r z q hne
    rw [fireWriteAux, ih _ _ _ (fun p2 hp2 => hne p2 (by simp [hp2]))]
    exact getD_set_ne z p q r (hne p (by simp))

/-- Reading the `i`-th written position. -/
theorem fireWriteAux_getD_at (ps : List Nat) : ∀ (r : Nat) (z : List Nat) (i : Nat),
    i < ps.length → List.Pairwise (· < ·) ps →
    (∀ p ∈ ps, p < z.length) →
    (fireWriteAux r z ps).getD (ps.getD i 0) 0 = r + i := by
  induction ps with
  | nil => intro r z i hi _ _; simp at hi
  | cons p rest ih =>
    intro r z i hi hpw hbnd
    rcases List.pairwise_cons.mp hpw with ⟨hplt, hpwrest⟩
    cases i with
    | zero =>
      rw [fireWriteAux, List.getD_cons_zero]
      rw [fireWriteAux_getD_other rest _ _ p (fun p2 hp2 => by
        have := hplt p2 hp2
        omega)]
      simpa using getD_set_eq z p r (hbnd p (by simp))
    | succ i =>
      rw [fireWriteAux, List.getD_cons_succ]
      have hres := ih (r + 1) (z.set p r) i (by simpa using hi) hpwrest (fun p2 hp2 => by
        rw [List.length_set]
        exact hbnd p2 (by simp [hp2]))
      rw [hres]
      omega

/-- Overwriting a slot with the value it already holds is the identity. -/
theorem set_getD_self (l : List Nat) : ∀ (i : Nat), i < l.length →
    l.set i (l.getD i 0) = l := by
  induction l with
  | nil => intro i h; simp at h
  | cons e rest ih =>
    intro i h
    cases i with
    | zero => simp
    | succ i =>
      rw [List.getD_cons_succ, List.set_cons_succ, ih i (by simpa using h)]

/-- Writing the promoted rows and then writing the original symbols back
restores the buffer. -/
theorem fireWriteAux_round (ps : List Nat) : ∀ (r : Nat) (z : List Nat),
    List.Pairwise (· < ·) ps →
    (∀ p ∈ ps, p < z.length) →
    (∀ i, i < ps.length → z.getD (ps.getD i 0) 0 = r + i) →
    fireWriteAux r (fireWriteAux (r + 1) z ps) ps = z := by
  induction ps with
  | nil => intro r z _ _ _; rfl
  | cons p rest ih =>
    intro r z hpw hbnd hval
    rcases List.pairwise_cons.mp hpw with ⟨hplt, hpwrest⟩
    have hne : ∀ q ∈ rest, ¬ q = p := fun q hq hh => by
      have := hplt q hq
      omega
    have hzp : z.getD p 0 = r := by simpa using hval 0 (by simp)
    simp only [fireWriteAux]
    rw [← fireWriteAux_set_comm rest (r + 1 + 1) (z.set p (r + 1)) p r hne]
    rw [List.set_set]
    have hself : z.set p r = z := by
      rw [← hzp]
      exact set_getD_self z p (hbnd p (by simp))
    rw [hself]
    refine ih (r + 1) z hpwrest (fun q hq => hbnd q (by simp [hq])) ?_
    intro i hilen
    have := hval (i + 1) (by simpa using hilen)
    rw [List.getD_cons_succ] at this
    rw [this]
    omega

/-- Additive effect of a single overwrite on a count. -/
theorem count_set_add (l : List Nat) : ∀ (i x a : Nat), i < l.length →
    (l.set i x).count a + (if l.getD i 0 = a then 1 else 0)
      = l.count a + (if x = a then 1 else 0) := by
  induction l with
  | nil => intro i x a h; simp at h
  | cons e rest ih =>
    intro i x a h
    cases i with
    | zero =>
      simp only [List.set_cons_zero, List.getD_cons_zero]
      rw [count_cons_ite, count_cons_ite]
      have h1 : (if a = x then 1 else 0) = (if x = a then 1 else 0) :=
        if_congr eq_comm rfl rfl
      have h2 : (if a = e then 1 else 0) = (if e = a then 1 else 0) :=
        if_congr eq_comm rfl rfl
      omega
    | succ i =>
      simp only [List.set_cons_succ, List.getD_cons_succ]
      rw [count_cons_ite, count_cons_ite]
      have := ih i x a (by simpa using h)
      omega

/-- An in-range `getD` is a member. -/
theorem getD_mem_of_lt (l : List Nat) (i : Nat) (h : i < l.length) : l.getD i 0 ∈ l := by
  rw [getD_eq_getElem_zero l i h]
  exact List.getElem_mem h

/-- Telescoped effect of the promotion overwrites on a count: the writes
consume one symbol `r0` and produce one symbol `r0 + ps.length`. -/
theorem count_fireWriteAux (ps : List Nat) : ∀ (r0 : Nat) (z : List Nat) (x : Nat),
    (∀ p ∈ ps, p < z.length) →
    (∀ i, i < ps.length → z.getD (ps.getD i 0) 0 = r0 + i) →
    List.Pairwise (· < ·) ps →
    (fireWriteAux (r0 + 1) z ps).count x + (if r0 = x then 1 else 0)
      = z.count x + (if r0 + ps.length = x then 1 else 0) := by
  induction ps with
  | nil => intro r0 z x _ _ _; simp [fireWriteAux]
  | cons p rest ih =>
    intro r0 z x hbnd hval hpw
    rcases List.pairwise_cons.mp hpw with ⟨hplt, hpwrest⟩
    simp only [fireWriteAux]
    have hbnd0 : p < z.length := hbnd p (by simp)
    have hzp : z.getD p 0 = r0 := by simpa using hval 0 (by simp)
    have hrec := ih (r0 + 1) (z.set p (r0 + 1)) x
      (fun q hq => by rw [List.length_set]; exact hbnd q (by simp [hq]))
      (fun i hilen => by
        have hv := hval (i + 1) (by simpa using hilen)
        rw [List.getD_cons_succ] at hv
        have hqp : ¬ p = rest.getD i 0 := by
          have hmem : rest.getD i 0 ∈ rest := getD_mem_of_lt _ _ hilen
          have := hplt _ hmem
          omega
        rw [getD_set_ne z p _ (r0 + 1) hqp, hv]
        omega)
      hpwrest
    have hset := count_set_add z p (r0 + 1) x hbnd0
    rw [hzp] at hset
    have hlen : r0 + (p :: rest).length = r0 + 1 + rest.length := by simp; omega
    rw [hlen]
    by_cases e1 : r0 = x <;> by_cases e2 : r0 + 1 = x <;>
      by_cases e3 : r0 + 1 + rest.length = x <;>
      simp [e1, e2, e3] at hrec hset ⊢ <;> omega

/-- Writes at positions at or beyond `q` leave the length-`q` prefix
unchanged. -/
theorem fireWriteAux_take_ge (ps : List Nat) : ∀ (r q : Nat) (z : List Nat),
    (∀ p ∈ ps, q ≤ p) →
    (fireWriteAux r z ps).take q = z.take q := by
  induction ps with
  | nil => intro r q z _; rfl
  | cons p rest ih =>
    intro r q z hge
    rw [fireWriteAux, ih (r + 1) q _ (fun p2 hp2 => hge p2 (by simp [hp2]))]
    rw [List.set_take]
    refine List.set_eq_of_length_le ?_
    have h1 : (z.take q).length ≤ q := by simp
    have := hge p (by simp)
    omega

/-- Writes at positions below `q` restrict to the length-`q` prefix. -/
theorem fireWriteAux_take_lt (ps : List Nat) : ∀ (r q : Nat) (z : List Nat),
    (∀ p ∈ ps, p < q) →
    (fireWriteAux r z ps).take q = fireWriteAux r (z.take q) ps := by
  induction ps with
  | nil => intro r q z _; rfl
  | cons p rest ih =>
    intro r q z hlt
    rw [fireWriteAux, fireWriteAux, ih (r + 1) q _ (fun p2 hp2 => hlt p2 (by simp [hp2]))]
    rw [List.set_take]

/-- `getD` restricted to a prefix that contains the position. -/
theorem getD_take_lt (l : List Nat) (i n : Nat) (h : i < n) :
    (l.take n).getD i 0 = l.getD i 0 := by
  by_cases hl : i < l.length
  · have h2 : i < (l.take n).length := by simp; omega
    rw [getD_eq_getElem_zero _ _ h2, getD_eq_getElem_zero _ _ hl]
    exact List.getElem_take l
  · rw [List.getD_eq_default, List.getD_eq_default]
    · omega
    · simp
      omega

/-- `getD` of an in-range position does not depend on the default. -/
theorem getD_indep (l : List Nat) (i : Nat) (h : i < l.length) (d1 d2 : Nat) :
    l.getD i d1 = l.getD i d2 := by
  rw [List.getD_eq_getElem?_getD, List.getD_eq_getElem?_getD, List.getElem?_eq_getElem h]
  rfl

/-- Reading the appended final element. -/
theorem getD_append_length (u : List Nat) (x : Nat) :
    (u ++ [x]).getD u.length 0 = x := by
  induction u with
  | nil => rfl
  | cons a t ih => simp [ih]

/-- Overwriting the appended final element. -/
theorem set_append_length (u : List Nat) (x y : Nat) :
    (u ++ [x]).set u.length y = u ++ [y] := by
  induction u with
  | nil => rfl
  | cons a t ih => simp [ih]

/-- Count over a word extended by one final symbol. -/
theorem count_append_singleton (u : List Nat) (e x : Nat) :
    (u ++ [e]).count x = u.count x + (if x = e then 1 else 0) := by
  rw [List.count_append, count_cons_ite]
  simp

/-- Chained form of the prefix ballot property. -/
theorem take_count_chain (z : List Nat) (mn : Nat)
    (hball : ∀ k s, (z.take k).count (mn + s + 1) ≤ (z.take k).count (mn + s))
    (k x y : Nat) (hx : mn ≤ x) (hxy : x ≤ y) :
    (z.take k).count y ≤ (z.take k).count x := by
  induction y, hxy using Nat.le_induction with
  | base => exact le_rfl
  | succ y hxy ih =>
    have hstep := hball k (y - mn)
    have hy : mn + (y - mn) = y := by omega
    rw [hy] at hstep
    exact le_trans hstep ih

/-- A scan over symbols equal to the hole row copies the input. -/
theorem promotionLoop_const (L : List Nat) : ∀ (first hr hc : Nat) (tr : Nat → Nat),
    (∀ x ∈ L, x = hr) → promotionLoop first hr hc tr L = L := by
  induction L with
  | nil => intro first hr hc tr _; rfl
  | cons e rest ih =>
    intro first hr hc tr hall
    have he : e = hr := hall e (by simp)
    rw [promotionLoop, if_pos he, ih first hr (hc + 1) _ (fun x hx => hall x (by simp [hx]))]

/-- Consuming the final element moves one unit of its count into the
tracking shape. -/
theorem bump_invariant (z' : List Nat) (e mn b mx : Nat) (tr : Nat → Nat)
    (hemn : mn ≤ e)
    (hA : ∀ s, s ≤ mx - mn →
      tr s + (z' ++ [e]).count (mn + s) = b + (if s = 0 then 1 else 0)) :
    ∀ s, s ≤ mx - mn →
      bump tr (e - mn) s + z'.count (mn + s) = b + (if s = 0 then 1 else 0) := by
  intro s hs
  have h0 := hA s hs
  rw [count_append_singleton] at h0
  by_cases hse : s = e - mn
  · have hb1 : bump tr (e - mn) s = tr s + 1 := by
      subst hse
      simp [bump]
    have hpos : (if mn + s = e then 1 else 0) = 1 := if_pos (by omega)
    rw [hpos] at h0
    omega
  · have hb1 : bump tr (e - mn) s = tr s := by simp [bump, hse]
    have hzero : (if mn + s = e then 1 else 0) = 0 := if_neg (by omega)
    rw [hzero] at h0
    omega

/-- Lifting the scan specification over an untouched final element, given
the strict count gap at the full word for the top stage. -/
theorem scanSpec_lift (mn : Nat) (z' : List Nat) (e : Nat) (ps : List Nat)
    (hspec : ScanSpec mn z' ps)
    (htop : (z' ++ [e]).count (mn + (ps.length - 1) + 1)
          + (if ps.length - 1 = 0 then 1 else 0)
        < (z' ++ [e]).count (mn + (ps.length - 1))) :
    ScanSpec mn (z' ++ [e]) ps := by
  obtain ⟨hpw, hbnd, hfc, hgap⟩ := hspec
  have hbnd2 : ∀ p ∈ ps, p < (z' ++ [e]).length := by
    intro p hp
    have := hbnd p hp
    simp
    omega
  refine ⟨hpw, hbnd2, ?_, ?_⟩
  · intro i hi
    have hfi := hfc i hi
    have hpi : ps.getD i 0 < z'.length := hbnd _ (getD_mem_of_lt _ _ hi)
    rw [List.getD_append _ _ _ _ hpi, List.take_append_of_le_length (le_of_lt hpi)]
    exact hfi
  · intro i q hi hq1 hq2
    by_cases hi1 : i + 1 < ps.length
    · have hgd : ps.getD (i + 1) ((z' ++ [e]).length) = ps.getD (i + 1) z'.length :=
        getD_indep ps (i + 1) hi1 _ _
      rw [hgd] at hq2
      have hqz : q ≤ z'.length := by
        refine le_trans hq2 ?_
        rw [getD_indep ps (i + 1) hi1 z'.length 0]
        exact le_of_lt (hbnd _ (getD_mem_of_lt _ _ hi1))
      rw [List.take_append_of_le_length hqz]
      exact hgap i q hi hq1 hq2
    · have hi0 : i = ps.length - 1 := by omega
      have hgd : ps.getD (i + 1) ((z' ++ [e]).length) = (z' ++ [e]).length :=
        List.getD_eq_default _ _ (by omega)
      rw [hgd] at hq2
      rcases le_or_lt q z'.length with hqz | hqz
      · rw [List.take_append_of_le_length hqz]
        refine hgap i q hi hq1 ?_
        rw [List.getD_eq_default _ _ (by omega)]
        exact hqz
      · have hqe : q = (z' ++ [e]).length := by
          simp at hq2 ⊢
          omega
        rw [hqe, List.take_length]
        subst hi0
        exact htop

/-- Extending the scan specification with a new top overwrite at the final
position. -/
theorem scanSpec_snoc (mn : Nat) (z' : List Nat) (e : Nat) (ps : List Nat)
    (hspec : ScanSpec mn z' ps)
    (hval : e = mn + ps.length)
    (hfcnew : z'.count (mn + ps.length)
        = z'.count (mn + ps.length + 1) + (if ps.length = 0 then 1 else 0))
    (hgapnew : (z' ++ [e]).count (mn + ps.length + 1)
          + (if ps.length = 0 then 1 else 0)
        < (z' ++ [e]).count (mn + ps.length)) :
    ScanSpec mn (z' ++ [e]) (ps ++ [z'.length]) := by
  obtain ⟨hpw, hbnd, hfc, hgap⟩ := hspec
  have hlen2 : (ps ++ [z'.length]).length = ps.length + 1 := by simp
  have hpw2 : List.Pairwise (· < ·) (ps ++ [z'.length]) := by
    rw [List.pairwise_append]
    refine ⟨hpw, by simp, ?_⟩
    intro a ha x hx
    simp at hx
    subst hx
    exact hbnd a ha
  have hget_top : (ps ++ [z'.length]).getD ps.length 0 = z'.length :=
    getD_append_length ps z'.length
  refine ⟨hpw2, ?_, ?_, ?_⟩
  · intro p hp
    simp only [List.mem_append, List.mem_singleton] at hp
    rcases hp with hp | hp
    · have := hbnd p hp
      simp
      omega
    · subst hp
      simp
  · intro i hi
    rw [hlen2] at hi
    rcases Nat.lt_or_ge i ps.length with hilt | hige
    · rw [List.getD_append _ _ _ _ hilt]
      have hfi := hfc i hilt
      have hpi : ps.getD i 0 < z'.length := hbnd _ (getD_mem_of_lt _ _ hilt)
      rw [List.getD_append _ _ _ _ hpi, List.take_append_of_le_length (le_of_lt hpi)]
      exact hfi
    · have hieq : i = ps.length := by omega
      subst hieq
      rw [hget_top]
      constructor
      · rw [getD_append_length]
        omega
      · rw [List.take_append_of_le_length le_rfl, List.take_length]
        exact hfcnew
  · intro i q hi hq1 hq2
    rw [hlen2] at hi
    rcases Nat.lt_or_ge i ps.length with hilt | hige
    · rw [List.getD_append _ _ _ _ hilt] at hq1
      by_cases hi1 : i + 1 < ps.length
      · have hb2 : (ps ++ [z'.length]).getD (i + 1) ((z' ++ [e]).length)
            = ps.getD (i + 1) z'.length := by
          rw [List.getD_append _ _ _ _ hi1]
          exact getD_indep ps (i + 1) hi1 _ _
        rw [hb2] at hq2
        have hqz : q ≤ z'.length := by
          refine le_trans hq2 ?_
          rw [getD_indep ps (i + 1) hi1 z'.length 0]
          exact le_of_lt (hbnd _ (getD_mem_of_lt _ _ hi1))
        rw [List.take_append_of_le_length hqz]
        exact hgap i q hilt hq1 hq2
      · have hieq : i + 1 = ps.length := by omega
        have hlt2 : i + 1 < (ps ++ [z'.length]).length := by
          simp
          omega
        have hb2 : (ps ++ [z'.length]).getD (i + 1) ((z' ++ [e]).length) = z'.length := by
          rw [getD_indep _ _ hlt2 _ 0, hieq, hget_top]
        rw [hb2] at hq2
        rw [List.take_append_of_le_length hq2]
        refine hgap i q hilt hq1 ?_
        rw [List.getD_eq_default _ _ (by omega)]
        exact hq2
    · have hieq : i = ps.length := by omega
      subst hieq
      rw [hget_top] at hq1
      have hb2 : (ps ++ [z'.length]).getD (ps.length + 1) ((z' ++ [e]).length)
          = (z' ++ [e]).length :=
        List.getD_eq_default _ _ (by simp)
      rw [hb2] at hq2
      have hqe : q = (z' ++ [e]).length := by
        simp at hq2 ⊢
        omega
      rw [hqe, List.take_length]
      exact hgapnew

/-- The promotion scan on a word satisfying the counter invariants: the
output is the input with one overwrite per promoted row, recorded by a
position list obeying `ScanSpec`. -/
theorem promotionLoop_spec (z : List Nat) : ∀ (mn b mx hr hc : Nat) (tr : Nat → Nat),
    (∀ e ∈ z, mn ≤ e ∧ e ≤ mx) →
    (∀ k s, (z.take k).count (mn + s + 1) ≤ (z.take k).count (mn + s)) →
    (∀ k, 0 < k → k ≤ z.length → (z.take k).count (mn + 1) + 1 ≤ (z.take k).count mn) →
    (∀ s, s ≤ mx - mn → tr s + z.count (mn + s) = b + (if s = 0 then 1 else 0)) →
    tr (hr - mn) = hc →
    tr (hr - 1 - mn) < hc →
    mn < hr → hr ≤ mx →
    ∃ ps : List Nat, ps.length = hr - mn ∧ ScanSpec mn z ps ∧
      promotionLoop mn hr hc tr z.reverse = (fireWriteAux (mn + 1) z ps).reverse := by
  induction z using List.reverseRecOn with
  | nil =>
    intro mn b mx hr hc tr hmem hball hhead hA hB hC hD hE
    exfalso
    have h1 := hA (hr - mn) (by omega)
    have h2 := hA (hr - 1 - mn) (by omega)
    simp only [List.count_nil] at h1 h2
    rw [if_neg (show ¬ hr - mn = 0 by omega)] at h1
    by_cases h3 : hr - 1 - mn = 0
    · rw [if_pos h3] at h2
      omega
    · rw [if_neg h3] at h2
      omega
  | append_singleton z' e ih =>
    intro mn b mx hr hc tr hmem hball hhead hA hB hC hD hE
    have he := hmem e (by simp)
    have hmem' : ∀ x ∈ z', mn ≤ x ∧ x ≤ mx := fun x hx => hmem x (by simp [hx])
    have hball' : ∀ k s, (z'.take k).count (mn + s + 1) ≤ (z'.take k).count (mn + s) := by
      intro k s
      rcases le_or_lt k z'.length with hk | hk
      · have h0 := hball k s
        rwa [List.take_append_of_le_length hk] at h0
      · rw [List.take_of_length_le (le_of_lt hk)]
        have h0 := hball z'.length s
        rwa [List.take_append_of_le_length le_rfl, List.take_length] at h0
    have hhead' : ∀ k, 0 < k → k ≤ z'.length →
        (z'.take k).count (mn + 1) + 1 ≤ (z'.take k).count mn := by
      intro k h0 hk
      have h1 := hhead k h0 (by simp; omega)
      rwa [List.take_append_of_le_length hk] at h1
    have hcz : ∀ x, (z' ++ [e]).count x = z'.count x + (if x = e then 1 else 0) :=
      fun x => count_append_singleton z' e x
    have hchainfull : ∀ x y, mn ≤ x → x ≤ y →
        (z' ++ [e]).count y ≤ (z' ++ [e]).count x := by
      intro x y hx hxy
      have h0 := take_count_chain (z' ++ [e]) mn hball (z' ++ [e]).length x y hx hxy
      rwa [List.take_length] at h0
    have hheadfull : (z' ++ [e]).count (mn + 1) + 1 ≤ (z' ++ [e]).count mn := by
      have h0 := hhead (z' ++ [e]).length (by simp) le_rfl
      rwa [List.take_length] at h0
    have htop : (z' ++ [e]).count (mn + (hr - mn - 1) + 1) + (if hr - mn - 1 = 0 then 1 else 0)
        < (z' ++ [e]).count (mn + (hr - mn - 1)) := by
      have hAhr := hA (hr - mn) (by omega)
      rw [if_neg (show ¬ hr - mn = 0 by omega),
        show mn + (hr - mn) = hr by omega] at hAhr
      rw [show mn + (hr - mn - 1) + 1 = hr by omega]
      by_cases htc : hr - mn - 1 = 0
      · rw [if_pos htc, show mn + (hr - mn - 1) = mn by omega]
        have hA0 := hA 0 (by omega)
        rw [if_pos rfl, Nat.add_zero] at hA0
        have hCz : tr 0 < hc := by
          have hz : hr - 1 - mn = 0 := by omega
          rwa [hz] at hC
        omega
      · rw [if_neg htc, show mn + (hr - mn - 1) = hr - 1 by omega]
        have hAhr1 := hA (hr - 1 - mn) (by omega)
        rw [if_neg (show ¬ hr - 1 - mn = 0 by omega),
          show mn + (hr - 1 - mn) = hr - 1 by omega] at hAhr1
        omega
    have hrev : (z' ++ [e]).reverse = e :: z'.reverse := by simp
    rw [hrev, promotionLoop]
    by_cases h1 : e = hr
    · rw [if_pos h1]
      subst h1
      have hA1 := bump_invariant z' e mn b mx tr he.1 hA
      have hB1 : bump tr (e - mn) (e - mn) = hc + 1 := by
        simp [bump, hB]
      have hC1 : bump tr (e - mn) (e - 1 - mn) < hc + 1 := by
        have hne : ¬ (e - 1 - mn = e - mn) := by omega
        simp only [bump]
        rw [if_neg hne]
        omega
      obtain ⟨ps, hlen, hspec, hout⟩ :=
        ih mn b mx e (hc + 1) (bump tr (e - mn)) hmem' hball' hhead' hA1 hB1 hC1 hD hE
      have hbnd' : ∀ p ∈ ps, p < z'.length := hspec.2.1
      refine ⟨ps, hlen, ?_, ?_⟩
      · refine scanSpec_lift mn z' e ps hspec ?_
        rw [hlen]
        exact htop
      · rw [hout, fireWriteAux_append ps (mn + 1) z' [e] hbnd']
        simp
    · by_cases h2 : bump tr (e - mn) (e - mn) = hc
      · -- the tracking count reaches the hole column: overwrite
        rw [if_neg h1, if_pos h2]
        have h2' : tr (e - mn) + 1 = hc := by
          have hb : bump tr (e - mn) (e - mn) = tr (e - mn) + 1 := by
            simp [bump]
          rw [hb] at h2
          exact h2
        have hAe := hA (e - mn) (by omega)
        rw [show mn + (e - mn) = e by omega] at hAe
        have hAhr := hA (hr - mn) (by omega)
        rw [if_neg (show ¬ hr - mn = 0 by omega),
          show mn + (hr - mn) = hr by omega] at hAhr
        have hAhr1 := hA (hr - 1 - mn) (by omega)
        rw [show mn + (hr - 1 - mn) = hr - 1 by omega] at hAhr1
        have he1 : e = hr - 1 := by
          by_contra hne
          rcases Nat.lt_or_ge e hr with hlt | hge
          · have helt : e < hr - 1 := by omega
            rw [if_neg (show ¬ hr - 1 - mn = 0 by omega)] at hAhr1
            rcases Nat.eq_or_lt_of_le he.1 with heq | hgt
            · subst heq
              rw [if_pos (by omega)] at hAe
              rcases Nat.eq_zero_or_pos z'.length with hz0 | hzpos
              · have hc1 : z'.count (hr - 1) ≤ z'.length := List.count_le_length _ _
                have hcz1 := hcz (hr - 1)
                rw [if_neg (by omega)] at hcz1
                omega
              · have hh := hhead' z'.length hzpos le_rfl
                rw [List.take_length] at hh
                have hchain1 := hchainfull (mn + 1) (hr - 1) (by omega) (by omega)
                have hcze := hcz mn
                rw [if_pos rfl] at hcze
                have hczm1 := hcz (mn + 1)
                rw [if_neg (by omega)] at hczm1
                omega
            · rw [if_neg (show ¬ e - mn = 0 by omega)] at hAe
              have hchain2 := hchainfull (e + 1) (hr - 1) (by omega) (by omega)
              have hbz := hball' z'.length (e - mn)
              rw [List.take_length, show mn + (e - mn) = e by omega] at hbz
              have hcze := hcz e
              rw [if_pos rfl] at hcze
              have hczm1 := hcz (e + 1)
              rw [if_neg (by omega)] at hczm1
              omega
          · have hgt : hr < e := by omega
            rw [if_neg (show ¬ e - mn = 0 by omega)] at hAe
            have hchain3 := hchainfull hr e (by omega) (by omega)
            omega
        subst he1
        by_cases h3 : hr - 1 = mn
        · -- the hole reaches the bottom row: the scan stops
          rw [if_pos h3]
          rw [if_pos (by omega : hr - 1 - mn = 0)] at hAe
          have hczmn := hcz mn
          rw [if_pos (by omega)] at hczmn
          have hczm1 := hcz (mn + 1)
          rw [if_neg (by omega)] at hczm1
          have hbr1 : (z' ++ [hr - 1]).count (hr - 1) = (z' ++ [hr - 1]).count mn := by
            rw [h3]
          have hbr2 : (z' ++ [hr - 1]).count hr = (z' ++ [hr - 1]).count (mn + 1) := by
            rw [show hr = mn + 1 by omega]
          refine ⟨[z'.length], by simp; omega, ⟨by simp, ?_, ?_, ?_⟩, ?_⟩
          · intro p hp
            simp only [List.mem_singleton] at hp
            subst hp
            simp
          · intro i hi
            have hi0 : i = 0 := by
              simp at hi
              omega
            subst hi0
            simp only [List.getD_cons_zero]
            constructor
            · rw [getD_append_length]
              omega
            · rw [List.take_append_of_le_length le_rfl, List.take_length]
              simp only [Nat.add_zero, if_true]
              omega
          · intro i q hi hq1 hq2
            have hi0 : i = 0 := by
              simp at hi
              omega
            subst hi0
            simp only [List.getD_cons_zero] at hq1
            rw [List.getD_eq_default _ _ (by simp)] at hq2
            have hqe : q = (z' ++ [hr - 1]).length := by
              simp at hq2 ⊢
              omega
            rw [hqe, List.take_length]
            simp only [Nat.add_zero, if_true]
            omega
          · have hrow : mn + 1 = hr := by omega
            simp only [fireWriteAux]
            rw [set_append_length, hrow]
            simp
        · -- the hole moves one row down and the scan continues
          rw [if_neg h3]
          rw [if_neg (show ¬ hr - 1 - mn = 0 by omega)] at hAe
          have hA1 := bump_invariant z' (hr - 1) mn b mx tr (by omega) hA
          have hB1 : bump tr (hr - 1 - mn) (hr - 1 - mn) = hc := by
            simpa [bump] using h2'
          have hC1 : bump tr (hr - 1 - mn) (hr - 1 - 1 - mn) < hc := by
            have hne2 : ¬ (hr - 1 - 1 - mn = hr - 1 - mn) := by omega
            simp only [bump]
            rw [if_neg hne2]
            rcases Nat.lt_or_ge mn (hr - 1 - 1) with hgt2 | hle2
            · have hAs2 := hA (hr - 1 - 1 - mn) (by omega)
              rw [if_neg (show ¬ hr - 1 - 1 - mn = 0 by omega),
                show mn + (hr - 1 - 1 - mn) = hr - 1 - 1 by omega] at hAs2
              have hchain4 := hchainfull (hr - 1 - 1) (hr - 1) (by omega) (by omega)
              omega
            · have hs20 : hr - 1 - 1 - mn = 0 := by omega
              rw [hs20]
              have hA0 := hA 0 (by omega)
              rw [if_pos rfl, Nat.add_zero] at hA0
              have hbr2 : (z' ++ [hr - 1]).count (mn + 1)
                  = (z' ++ [hr - 1]).count (hr - 1) := by
                rw [show mn + 1 = hr - 1 by omega]
              omega
          obtain ⟨ps', hlen', hspec', hout'⟩ :=
            ih mn b mx (hr - 1) hc (bump tr (hr - 1 - mn)) hmem' hball' hhead' hA1 hB1 hC1
              (by omega) (by omega)
          have hbnd' : ∀ p ∈ ps', p < z'.length := hspec'.2.1
          have hczhr1 := hcz (hr - 1)
          rw [if_pos rfl] at hczhr1
          have hczhr := hcz hr
          rw [if_neg (by omega)] at hczhr
          refine ⟨ps' ++ [z'.length], by simp; omega, ?_, ?_⟩
          · refine scanSpec_snoc mn z' (hr - 1) ps' hspec' (by omega) ?_ ?_
            · rw [hlen', show mn + (hr - 1 - mn) = hr - 1 by omega,
                show hr - 1 + 1 = hr by omega, if_neg (show ¬ hr - 1 - mn = 0 by omega)]
              omega
            · rw [hlen', show mn + (hr - 1 - mn) = hr - 1 by omega,
                show hr - 1 + 1 = hr by omega, if_neg (show ¬ hr - 1 - mn = 0 by omega)]
              omega
          · rw [hout']
            rw [fireWriteAux_split ps' [z'.length] (mn + 1) (z' ++ [hr - 1])]
            rw [fireWriteAux_append ps' (mn + 1) z' [hr - 1] hbnd']
            simp only [fireWriteAux]
            have hWlen : (fireWriteAux (mn + 1) z' ps').length = z'.length :=
              fireWriteAux_length ps' _ _
            rw [← hWlen, set_append_length]
            rw [show mn + 1 + ps'.length = hr by omega]
            simp
      · -- ordinary element: counts advance, the hole stays
        rw [if_neg h1, if_neg h2]
        have hA1 := bump_invariant z' e mn b mx tr he.1 hA
        have hslotne : ¬ (hr - mn = e - mn) := by omega
        have hB1 : bump tr (e - mn) (hr - mn) = hc := by
          simp only [bump]
          rw [if_neg hslotne]
          exact hB
        have h2' : ¬ (tr (e - mn) + 1 = hc) := by
          intro hcontra
          apply h2
          simpa [bump] using hcontra
        have hC1 : bump tr (e - mn) (hr - 1 - mn) < hc := by
          simp only [bump]
          by_cases hse : hr - 1 - mn = e - mn
          · rw [if_pos hse]
            rw [hse] at hC
            omega
          · rw [if_neg hse]
            exact hC
        obtain ⟨ps, hlen, hspec, hout⟩ :=
          ih mn b mx hr hc (bump tr (e - mn)) hmem' hball' hhead' hA1 hB1 hC1 hD hE
        have hbnd' : ∀ p ∈ ps, p < z'.length := hspec.2.1
        refine ⟨ps, hlen, ?_, ?_⟩
        · refine scanSpec_lift mn z' e ps hspec ?_
          rw [hlen]
          exact htop
        · rw [hout, fireWriteAux_append ps (mn + 1) z' [e] hbnd']
          simp

/-- A strictly increasing position list splits at any threshold. -/
theorem sorted_split (ps : List Nat) (q : Nat) (hpw : List.Pairwise (· < ·) ps) :
    ∃ j, j ≤ ps.length ∧ (∀ i, i < j → ps.getD i 0 < q) ∧
      (∀ i, j ≤ i → i < ps.length → q ≤ ps.getD i 0) := by
  induction ps with
  | nil => exact ⟨0, by simp, by simp, by simp⟩
  | cons p rest ih =>
    rcases List.pairwise_cons.mp hpw with ⟨hplt, hpwrest⟩
    by_cases hpq : p < q
    · obtain ⟨j, hj, h1, h2⟩ := ih hpwrest
      refine ⟨j + 1, by simpa using hj, ?_, ?_⟩
      · intro i hi
        cases i with
        | zero => simpa using hpq
        | succ i =>
          rw [List.getD_cons_succ]
          exact h1 i (by omega)
      · intro i hji hilen
        cases i with
        | zero => omega
        | succ i =>
          rw [List.getD_cons_succ]
          exact h2 i (by omega) (by simpa using hilen)
    · refine ⟨0, by simp, by simp, ?_⟩
      intro i _ hilen
      cases i with
      | zero => simpa using not_lt.mp hpq
      | succ i =>
        rw [List.getD_cons_succ]
        have hmem : rest.getD i 0 ∈ rest := getD_mem_of_lt _ _ (by simpa using hilen)
        have := hplt _ hmem
        omega

/-- A word whose shifted prefix counts are weakly decreasing and whose
minimum symbol is `mn` is accepted by `LatticeWord::new`. -/
theorem accepted_of_shifted_counts (w : List Nat) (mn : Nat)
    (hmin : listMinD w = mn)
    (hmem : ∀ e ∈ w, mn ≤ e)
    (hcnt : ∀ k s, (w.take k).count (mn + s + 1) ≤ (w.take k).count (mn + s)) :
    isLatticeWord w = true := by
  cases w with
  | nil => rfl
  | cons a rest =>
    show newLoop (listMinD (a :: rest)) (fun _ => 0) (a :: rest) = true
    rw [hmin]
    refine newLoop_true_of_counts (a :: rest) (fun _ => 0) mn hmem ?_
    intro k i hi
    have hinst := hcnt k (i - 1)
    have heq : mn + (i - 1) + 1 = mn + i := by omega
    have heq2 : mn + (i - 1) = mn + i - 1 := by omega
    rw [heq, heq2] at hinst
    simpa using hinst

/-- Shifted prefix ballot property of an accepted word. -/
theorem ballot_take_counts (w : List Nat) (h : isLatticeWord w = true) :
    ∀ k s, (w.take k).count (listMinD w + s + 1) ≤ (w.take k).count (listMinD w + s) := by
  cases w with
  | nil => intro k s; simp
  | cons a rest =>
    intro k s
    have hmem := listMinD_le_mem (a :: rest)
    have hkey := newLoop_take_counts (a :: rest) (fun _ => 0) (listMinD (a :: rest))
      hmem (by simp) h k (s + 1) (by omega)
    simpa using hkey

/-- On an accepted word whose minimum and maximum counts agree, every
symbol between the minimum and the maximum occurs equally often. -/
theorem rect_counts_eq (w : List Nat) (h : isLatticeWord w = true)
    (hrect : w.count (listMinD w) = w.count (listMaxD w)) (v : Nat)
    (hv1 : listMinD w ≤ v) (hv2 : v ≤ listMaxD w) :
    w.count v = w.count (listMinD w) := by
  have hle1 := count_chain_of_accepted w h (listMinD w) v le_rfl hv1
  have hle2 := count_chain_of_accepted w h v (listMaxD w) hv1 hv2
  omega

/-- The rectangularity check on an accepted word computes equality of the
minimum and maximum counts. -/
theorem rect_check_iff (a : Nat) (rest : List Nat)
    (h : isLatticeWord (a :: rest) = true) :
    isRectangleLoop a a 0 0 (a :: rest)
      = ((a :: rest).count (listMinD (a :: rest))
          == (a :: rest).count (listMaxD (a :: rest))) := by
  have hamn : a = listMinD (a :: rest) := head_eq_min a rest h
  have hspec := isRectangleLoop_spec (a :: rest) [] a a 0 0 (by simp) (by simp) (by simp)
  rw [List.nil_append] at hspec
  have hfold : (a :: rest).foldl Nat.max a = listMaxD (a :: rest) := by
    simp [listMaxD, List.foldl_cons, Nat.max_self]
  rw [hfold] at hspec
  rw [hspec, ← hamn]

/-- An accepted word whose minimum and maximum counts agree ends with its
maximum symbol. -/
theorem last_eq_max (u : List Nat) (x : Nat)
    (h : isLatticeWord (u ++ [x]) = true)
    (hcnt : (u ++ [x]).count (listMinD (u ++ [x]))
      = (u ++ [x]).count (listMaxD (u ++ [x]))) :
    x = listMaxD (u ++ [x]) := by
  by_contra hne
  have hxmem : x ∈ u ++ [x] := by simp
  have hxmx : x ≤ listMaxD (u ++ [x]) := le_listMaxD_mem _ x hxmem
  have hxmn : listMinD (u ++ [x]) ≤ x := listMinD_le_mem _ x hxmem
  have hxcnt : 0 < (u ++ [x]).count x := List.count_pos_iff.mpr hxmem
  have htk : (u ++ [x]).take u.length = u := by
    rw [List.take_append_of_le_length le_rfl, List.take_length]
  have hchain := take_count_chain (u ++ [x]) (listMinD (u ++ [x]))
    (ballot_take_counts (u ++ [x]) h) u.length x (listMaxD (u ++ [x])) hxmn (by omega)
  rw [htk] at hchain
  have hcu1 : (u ++ [x]).count x = u.count x + 1 := by
    rw [count_append_singleton, if_pos rfl]
  have hcu2 : (u ++ [x]).count (listMaxD (u ++ [x]))
      = u.count (listMaxD (u ++ [x])) := by
    rw [count_append_singleton, if_neg (fun hh => hne hh.symm)]
    omega
  have hcx : (u ++ [x]).count x ≤ (u ++ [x]).count (listMinD (u ++ [x]))
    := count_chain_of_accepted _ h _ x le_rfl hxmn
  omega

/-- The running minimum fold lands on its seed or on a list element. -/
theorem foldl_min_mem (rest : List Nat) : ∀ a : Nat,
    rest.foldl Nat.min a = a ∨ rest.foldl Nat.min a ∈ rest := by
  induction rest with
  | nil => intro a; exact Or.inl rfl
  | cons b t ih =>
    intro a
    rw [List.foldl_cons]
    rcases ih (Nat.min a b) with h | h
    · rcases Nat.le_total a b with hab | hab
      · have hm : Nat.min a b = a := Nat.min_eq_left hab
        rw [hm] at h ⊢
        exact Or.inl h
      · have hm : Nat.min a b = b := Nat.min_eq_right hab
        rw [hm] at h ⊢
        exact Or.inr (by simp [h])
    · exact Or.inr (List.mem_cons_of_mem _ h)

/-- The running maximum fold lands on its seed or on a list element. -/
theorem foldl_max_mem (rest : List Nat) : ∀ a : Nat,
    rest.foldl Nat.max a = a ∨ rest.foldl Nat.max a ∈ rest := by
  induction rest with
  | nil => intro a; exact Or.inl rfl
  | cons b t ih =>
    intro a
    rw [List.foldl_cons]
    rcases ih (Nat.max a b) with h | h
    · rcases Nat.le_total b a with hab | hab
      · have hm : Nat.max a b = a := Nat.max_eq_left hab
        rw [hm] at h ⊢
        exact Or.inl h
      · have hm : Nat.max a b = b := Nat.max_eq_right hab
        rw [hm] at h ⊢
        exact Or.inr (by simp [h])
    · exact Or.inr (List.mem_cons_of_mem _ h)

/-- The minimum of a non-empty word is one of its symbols. -/
theorem listMinD_mem (w : List Nat) (hw : w ≠ []) : listMinD w ∈ w := by
  cases w with
  | nil => exact absurd rfl hw
  | cons a rest =>
    show rest.foldl Nat.min a ∈ a :: rest
    rcases foldl_min_mem rest a with h | h
    · rw [h]
      simp
    · exact List.mem_cons_of_mem _ h

/-- The maximum of a non-empty word is one of its symbols. -/
theorem listMaxD_mem (w : List Nat) (hw : w ≠ []) : listMaxD w ∈ w := by
  cases w with
  | nil => exact absurd rfl hw
  | cons a rest =>
    show rest.foldl Nat.max a ∈ a :: rest
    rcases foldl_max_mem rest a with h | h
    · rw [h]
      simp
    · exact List.mem_cons_of_mem _ h

/-- An attained lower bound is the minimum. -/
theorem listMinD_eq_of_mem (w : List Nat) (mn : Nat) (hmem : mn ∈ w)
    (hlb : ∀ e ∈ w, mn ≤ e) : listMinD w = mn := by
  have h1 := listMinD_le_mem w mn hmem
  have h2 : mn ≤ listMinD w := hlb _ (listMinD_mem w (by rintro rfl; simp at hmem))
  omega

/-- An attained upper bound is the maximum. -/
theorem listMaxD_eq_of_mem (w : List Nat) (mx : Nat) (hmem : mx ∈ w)
    (hub : ∀ e ∈ w, e ≤ mx) : listMaxD w = mx := by
  have h1 := le_listMaxD_mem w mx hmem
  have h2 : listMaxD w ≤ mx := hub _ (listMaxD_mem w (by rintro rfl; simp at hmem))
  omega

/-- Words of equal content have equal minima. -/
theorem listMinD_eq_of_counts (w u : List Nat) (hw : w ≠ []) (hu : u ≠ [])
    (hc : ∀ r, u.count r = w.count r) : listMinD u = listMinD w := by
  have h1 : listMinD w ∈ u := by
    rw [← List.count_pos_iff, hc]
    exact List.count_pos_iff.mpr (listMinD_mem w hw)
  have h2 : listMinD u ∈ w := by
    rw [← List.count_pos_iff, ← hc]
    exact List.count_pos_iff.mpr (listMinD_mem u hu)
  have h3 := listMinD_le_mem u _ h1
  have h4 := listMinD_le_mem w _ h2
  omega

/-- Words of equal content have equal maxima. -/
theorem listMaxD_eq_of_counts (w u : List Nat) (hw : w ≠ []) (hu : u ≠ [])
    (hc : ∀ r, u.count r = w.count r) : listMaxD u = listMaxD w := by
  have h1 : listMaxD w ∈ u := by
    rw [← List.count_pos_iff, hc]
    exact List.count_pos_iff.mpr (listMaxD_mem w hw)
  have h2 : listMaxD u ∈ w := by
    rw [← List.count_pos_iff, ← hc]
    exact List.count_pos_iff.mpr (listMaxD_mem u hu)
  have h3 := le_listMaxD_mem u _ h1
  have h4 := le_listMaxD_mem w _ h2
  omega

/-- Counting one more prefix element. -/
theorem take_succ_count (v : List Nat) (q : Nat) (hq : q < v.length) (x : Nat) :
    (v.take (q + 1)).count x = (v.take q).count x + (if x = v.getD q 0 then 1 else 0) := by
  rw [List.take_succ, List.getElem?_eq_getElem hq]
  rw [getD_eq_getElem_zero v q hq]
  exact count_append_singleton _ _ _

/-- Strictly increasing position lists read increasingly. -/
theorem pairwise_getD_lt (ps : List Nat) (hpw : List.Pairwise (· < ·) ps)
    (i j : Nat) (hij : i < j) (hj : j < ps.length) :
    ps.getD i 0 < ps.getD j 0 := by
  have hi : i < ps.length := by omega
  rw [getD_eq_getElem_zero _ _ hi, getD_eq_getElem_zero _ _ hj]
  exact List.pairwise_iff_getElem.mp hpw i j hi hj hij

/-- Every element of a prefix of the position list is below the threshold
when the listed positions are. -/
theorem mem_take_lt (l : List Nat) (j q : Nat)
    (hlt : ∀ i, i < j → l.getD i 0 < q) :
    ∀ p ∈ l.take j, p < q := by
  intro p hp
  obtain ⟨i, hi, hget⟩ := List.mem_iff_getElem.mp hp
  have hil : i < l.length := by
    simp at hi
    omega
  have hij : i < j := by
    simp at hi
    omega
  have hgd : l.getD i 0 = p := by
    rw [getD_eq_getElem_zero _ _ hil, ← hget]
    exact (List.getElem_take l).symm
  have := hlt i hij
  omega

/-- Every element of a suffix of the position list reaches the threshold
when the listed positions do. -/
theorem mem_drop_ge (l : List Nat) (j q : Nat)
    (hge : ∀ i, j ≤ i → i < l.length → q ≤ l.getD i 0) :
    ∀ p ∈ l.drop j, q ≤ p := by
  intro p hp
  obtain ⟨i, hi, hget⟩ := List.mem_iff_getElem.mp hp
  have hil : j + i < l.length := by
    simp at hi
    omega
  have hgd : l.getD (j + i) 0 = p := by
    rw [getD_eq_getElem_zero _ _ hil, ← hget]
    exact (List.getElem_drop l).symm
  have := hge (j + i) (by omega) hil
  omega

/-- Restriction of the overwrites to a prefix of the buffer, splitting the
position list at a threshold. -/
theorem fireWriteAux_take_split (mn : Nat) (v ps : List Nat) (q j : Nat)
    (hlt : ∀ i, i < j → ps.getD i 0 < q)
    (hge : ∀ i, j ≤ i → i < ps.length → q ≤ ps.getD i 0) :
    (fireWriteAux (mn + 1) v ps).take q = fireWriteAux (mn + 1) (v.take q) (ps.take j) := by
  conv_lhs => rw [← List.take_append_drop j ps]
  rw [fireWriteAux_split]
  rw [fireWriteAux_take_ge _ _ _ _ (mem_drop_ge ps j q hge)]
  exact fireWriteAux_take_lt _ _ _ _ (mem_take_lt ps j q hlt)

/-- The promoted word keeps the shifted prefix ballot property. -/
theorem output_ballot (mn : Nat) (v ps : List Nat)
    (hspec : ScanSpec mn v ps)
    (hball : ∀ k s, (v.take k).count (mn + s + 1) ≤ (v.take k).count (mn + s))
    (hhead : ∀ k, 0 < k → k ≤ v.length →
      (v.take k).count (mn + 1) + 1 ≤ (v.take k).count mn) :
    ∀ k s, ((fireWriteAux (mn + 1) v ps).take k).count (mn + s + 1)
      ≤ ((fireWriteAux (mn + 1) v ps).take k).count (mn + s) := by
  obtain ⟨hpw, hbnd, hfc, hgap⟩ := hspec
  have holen : (fireWriteAux (mn + 1) v ps).length = v.length := fireWriteAux_length ps _ _
  suffices hmain : ∀ k, k ≤ v.length → ∀ s,
      ((fireWriteAux (mn + 1) v ps).take k).count (mn + s + 1)
        ≤ ((fireWriteAux (mn + 1) v ps).take k).count (mn + s) by
    intro k s
    rcases le_or_lt k v.length with hk | hk
    · exact hmain k hk s
    · rw [List.take_of_length_le (by omega)]
      have h0 := hmain v.length le_rfl s
      rwa [List.take_of_length_le (by omega)] at h0
  intro k hk s
  obtain ⟨j, hj, hlt, hge⟩ := sorted_split ps k hpw
  have htake : (fireWriteAux (mn + 1) v ps).take k
      = fireWriteAux (mn + 1) (v.take k) (ps.take j) :=
    fireWriteAux_take_split mn v ps k j hlt hge
  rw [htake]
  have hjlen : (ps.take j).length = j := by
    simp
    omega
  have htklen : (v.take k).length = k := by
    simp
    omega
  have hbnds : ∀ p ∈ ps.take j, p < (v.take k).length := by
    intro p hp
    have := mem_take_lt ps j k hlt p hp
    omega
  have hvals : ∀ i, i < (ps.take j).length →
      (v.take k).getD ((ps.take j).getD i 0) 0 = mn + i := by
    intro i hi
    rw [hjlen] at hi
    rw [getD_take_lt ps i j hi, getD_take_lt v _ k (hlt i hi)]
    exact (hfc i (by omega)).1
  have hpwt : List.Pairwise (· < ·) (ps.take j) := List.Pairwise.sublist (List.take_sublist j ps) hpw
  have hc1 := count_fireWriteAux (ps.take j) mn (v.take k) (mn + s) hbnds hvals hpwt
  have hc2 := count_fireWriteAux (ps.take j) mn (v.take k) (mn + s + 1) hbnds hvals hpwt
  rw [hjlen] at hc1 hc2
  rw [if_neg (show ¬ mn = mn + s + 1 by omega)] at hc2
  have e1 : (if mn = mn + s then (1 : Nat) else 0) = (if s = 0 then 1 else 0) :=
    if_congr (by omega) rfl rfl
  have e2 : (if mn + j = mn + s then (1 : Nat) else 0) = (if j = s then 1 else 0) :=
    if_congr (by omega) rfl rfl
  have e3 : (if mn + j = mn + s + 1 then (1 : Nat) else 0) = (if j = s + 1 then 1 else 0) :=
    if_congr (by omega) rfl rfl
  rw [e1, e2] at hc1
  rw [e3] at hc2
  have hb := hball k s
  by_cases hjs1 : j = s + 1
  · rw [if_pos hjs1] at hc2
    have hq2 : k ≤ ps.getD (s + 1) v.length := by
      rcases Nat.lt_or_ge (s + 1) ps.length with hlen2 | hlen2
      · rw [getD_indep ps (s + 1) hlen2 _ 0]
        exact hge (s + 1) (by omega) hlen2
      · rw [List.getD_eq_default _ _ hlen2]
        exact hk
    have hgapi := hgap s k (by omega) (hlt s (by omega)) hq2
    by_cases hs0 : s = 0
    · rw [if_pos hs0] at hc1 hgapi
      rw [if_neg (show ¬ j = s by omega)] at hc1
      omega
    · rw [if_neg hs0] at hc1 hgapi
      rw [if_neg (show ¬ j = s by omega)] at hc1
      omega
  · rw [if_neg hjs1] at hc2
    by_cases hjs : j = s
    · rw [if_pos hjs] at hc1
      by_cases hs0 : s = 0
      · rw [if_pos hs0] at hc1
        omega
      · rw [if_neg hs0] at hc1
        omega
    · rw [if_neg hjs] at hc1
      by_cases hs0 : s = 0
      · rw [if_pos hs0] at hc1
        have hk0 : 0 < k := by
          have := hlt 0 (by omega)
          omega
        have hh2 : (v.take k).count (mn + s + 1) + 1 ≤ (v.take k).count (mn + s) := by
          subst hs0
          simpa using hhead k hk0 hk
        omega
      · rw [if_neg hs0] at hc1
        omega

/-- Assembling a demotion reading from pointwise first-candidate facts. -/
theorem demotionSeq_of_pointwise (o : List Nat) : ∀ (ps : List Nat) (r lo : Nat),
    (∀ p ∈ ps, lo ≤ p) →
    List.Pairwise (· < ·) ps →
    (∀ i, i < ps.length → GoodPos o (r + i) (ps.getD i 0)) →
    (∀ i q, i < ps.length → q < ps.getD i 0 →
      (i = 0 → lo ≤ q) → (∀ m, m + 1 = i → ps.getD m 0 < q) →
      ¬ GoodPos o (r + i) q) →
    DemotionSeq o r lo ps := by
  intro ps
  induction ps with
  | nil => intro r lo _ _ _ _; exact trivial
  | cons p rest ih =>
    intro r lo hlo hpw hgood hmin
    rcases List.pairwise_cons.mp hpw with ⟨hplt, hpwrest⟩
    refine ⟨hlo p (by simp), ?_, ?_, ?_⟩
    · have h0 := hgood 0 (by simp)
      simpa using h0
    · intro q hloq hqp
      have h0 := hmin 0 q (by simp) (by simpa using hqp) (fun _ => hloq)
        (fun m hm => by omega)
      simpa using h0
    · refine ih (r + 1) (p + 1) ?_ hpwrest ?_ ?_
      · intro p2 hp2
        have := hplt p2 hp2
        omega
      · intro i hi
        have h0 := hgood (i + 1) (by simpa using hi)
        rw [List.getD_cons_succ] at h0
        rw [show r + 1 + i = r + (i + 1) by omega]
        exact h0
      · intro i q hi hq hlo2 hprev
        rw [show r + 1 + i = r + (i + 1) by omega]
        refine hmin (i + 1) q (by simpa using hi) (by rwa [List.getD_cons_succ]) (by omega) ?_
        intro m hm
        cases m with
        | zero =>
          rw [List.getD_cons_zero]
          have hieq : i = 0 := by omega
          have := hlo2 hieq
          omega
        | succ m =>
          rw [List.getD_cons_succ]
          exact hprev m (by omega)

/-- The overwrite positions of the scan are exactly the first demotion
points of the promoted word. -/
theorem output_demotion (mn : Nat) (v ps : List Nat)
    (hspec : ScanSpec mn v ps)
    (hball : ∀ k s, (v.take k).count (mn + s + 1) ≤ (v.take k).count (mn + s))
    (hhead : ∀ k, 0 < k → k ≤ v.length →
      (v.take k).count (mn + 1) + 1 ≤ (v.take k).count mn) :
    DemotionSeq (fireWriteAux (mn + 1) v ps) (mn + 1) 0 ps := by
  obtain ⟨hpw, hbnd, hfc, hgap⟩ := hspec
  have hconvgen : ∀ (q i : Nat), i ≤ ps.length →
      (∀ i2, i2 < i → ps.getD i2 0 < q) →
      (∀ i2, i ≤ i2 → i2 < ps.length → q ≤ ps.getD i2 0) →
      q ≤ v.length →
      ∀ x, ((fireWriteAux (mn + 1) v ps).take q).count x + (if mn = x then 1 else 0)
        = ((v.take q).count x) + (if mn + i = x then 1 else 0) := by
    intro q i hi hlt hge hq x
    have htake : (fireWriteAux (mn + 1) v ps).take q
        = fireWriteAux (mn + 1) (v.take q) (ps.take i) :=
      fireWriteAux_take_split mn v ps q i hlt hge
    rw [htake]
    have hilen : (ps.take i).length = i := by
      simp
      omega
    have hbnds : ∀ p ∈ ps.take i, p < (v.take q).length := by
      intro p hp
      have h1 := mem_take_lt ps i q hlt p hp
      simp
      omega
    have hvals : ∀ i2, i2 < (ps.take i).length →
        (v.take q).getD ((ps.take i).getD i2 0) 0 = mn + i2 := by
      intro i2 hi2
      rw [hilen] at hi2
      rw [getD_take_lt ps i2 i hi2, getD_take_lt v _ q (hlt i2 hi2)]
      exact (hfc i2 (by omega)).1
    have hpwt : List.Pairwise (· < ·) (ps.take i) :=
      List.Pairwise.sublist (List.take_sublist i ps) hpw
    have h0 := count_fireWriteAux (ps.take i) mn (v.take q) x hbnds hvals hpwt
    rwa [hilen] at h0
  refine demotionSeq_of_pointwise _ ps (mn + 1) 0 (fun p _ => Nat.zero_le p) hpw ?_ ?_
  · intro i hi
    have hp : ps.getD i 0 < v.length := hbnd _ (getD_mem_of_lt _ _ hi)
    constructor
    · exact fireWriteAux_getD_at ps (mn + 1) v i hi hpw hbnd
    · have hlt2 : ∀ i2, i2 < i → ps.getD i2 0 < ps.getD i 0 :=
        fun i2 h2 => pairwise_getD_lt ps hpw i2 i h2 hi
      have hge2 : ∀ i2, i ≤ i2 → i2 < ps.length → ps.getD i 0 ≤ ps.getD i2 0 := by
        intro i2 h2 hlen2
        rcases Nat.eq_or_lt_of_le h2 with rfl | h3
        · exact le_rfl
        · exact le_of_lt (pairwise_getD_lt ps hpw i i2 h3 hlen2)
      have hcv1 := hconvgen (ps.getD i 0) i (by omega) hlt2 hge2 (le_of_lt hp) (mn + i)
      have hcv2 := hconvgen (ps.getD i 0) i (by omega) hlt2 hge2 (le_of_lt hp) (mn + i + 1)
      have hfci := (hfc i hi).2
      rw [if_neg (show ¬ mn = mn + i + 1 by omega),
        if_neg (show ¬ mn + i = mn + i + 1 by omega)] at hcv2
      have e1 : (if mn = mn + i then (1 : Nat) else 0) = (if i = 0 then 1 else 0) :=
        if_congr (by omega) rfl rfl
      rw [e1, if_pos rfl] at hcv1
      rw [show mn + 1 + i - 1 = mn + i by omega, show mn + 1 + i = mn + i + 1 by omega]
      omega
  · intro i q hi hq hcase0 hprev
    intro hgd
    obtain ⟨hgd1, hgd2⟩ := hgd
    have hlt2 : ∀ i2, i2 < i → ps.getD i2 0 < q := by
      intro i2 h2
      have hpm := hprev (i - 1) (by omega)
      rcases Nat.eq_or_lt_of_le (show i2 ≤ i - 1 by omega) with heq2 | hlt3
      · rw [heq2]
        exact hpm
      · have := pairwise_getD_lt ps hpw i2 (i - 1) hlt3 (by omega)
        omega
    have hge2 : ∀ i2, i ≤ i2 → i2 < ps.length → q ≤ ps.getD i2 0 := by
      intro i2 h2 hlen2
      rcases Nat.eq_or_lt_of_le h2 with rfl | h3
      · omega
      · have := pairwise_getD_lt ps hpw i i2 h3 hlen2
        omega
    have hnotin : ∀ p2 ∈ ps, ¬ p2 = q := by
      intro p2 hp2 hpe
      subst hpe
      obtain ⟨i2, hi2, hget⟩ := List.mem_iff_getElem.mp hp2
      have hgdi : ps.getD i2 0 = p2 := by
        rw [getD_eq_getElem_zero _ _ hi2, hget]
      rcases Nat.lt_or_ge i2 i with hc | hc
      · have := hlt2 i2 hc
        omega
      · have hcc : ps.getD i 0 ≤ ps.getD i2 0 := by
          rcases Nat.eq_or_lt_of_le hc with heq3 | h3
          · rw [heq3]
          · exact le_of_lt (pairwise_getD_lt ps hpw i i2 h3 hi2)
        omega
    have hov : (fireWriteAux (mn + 1) v ps).getD q 0 = v.getD q 0 :=
      fireWriteAux_getD_other ps (mn + 1) v q hnotin
    rw [hov] at hgd1
    have hqv : q < v.length := by
      have h2 := hbnd _ (getD_mem_of_lt _ _ hi)
      omega
    have hcv1 := hconvgen q i (by omega) hlt2 hge2 (by omega) (mn + i)
    have hcv2 := hconvgen q i (by omega) hlt2 hge2 (by omega) (mn + i + 1)
    rw [if_neg (show ¬ mn = mn + i + 1 by omega),
      if_neg (show ¬ mn + i = mn + i + 1 by omega)] at hcv2
    have e1 : (if mn = mn + i then (1 : Nat) else 0) = (if i = 0 then 1 else 0) :=
      if_congr (by omega) rfl rfl
    rw [e1, if_pos rfl] at hcv1
    rw [show mn + 1 + i - 1 = mn + i by omega, show mn + 1 + i = mn + i + 1 by omega] at hgd2
    have hts1 := take_succ_count v q hqv (mn + i)
    have hts2 := take_succ_count v q hqv (mn + i + 1)
    rw [hgd1] at hts1 hts2
    rw [if_neg (show ¬ mn + i = mn + 1 + i by omega)] at hts1
    rw [if_pos (show mn + i + 1 = mn + 1 + i by omega)] at hts2
    by_cases hi0 : i = 0
    · rw [if_pos hi0] at hcv1
      have hh := hhead (q + 1) (by omega) (by omega)
      subst hi0
      simp only [Nat.add_zero] at hcv1 hcv2 hgd2 hts1 hts2
      omega
    · rw [if_neg hi0] at hcv1
      have hbl := hball (q + 1) i
      omega

/-- Two demotion readings of equal length coincide. -/
theorem demotionSeq_unique (o : List Nat) : ∀ (ps1 ps2 : List Nat) (r lo : Nat),
    DemotionSeq o r lo ps1 → DemotionSeq o r lo ps2 → ps1.length = ps2.length →
    ps1 = ps2 := by
  intro ps1
  induction ps1 with
  | nil =>
    intro ps2 r lo _ _ hlen
    cases ps2 with
    | nil => rfl
    | cons p2 t2 => simp at hlen
  | cons p1 t1 ih =>
    intro ps2 r lo h1 h2 hlen
    cases ps2 with
    | nil => simp at hlen
    | cons p2 t2 =>
      obtain ⟨hlo1, hg1, hmin1, hrest1⟩ := h1
      obtain ⟨hlo2, hg2, hmin2, hrest2⟩ := h2
      have hpe : p1 = p2 := by
        rcases Nat.lt_trichotomy p1 p2 with h | h | h
        · exact absurd hg1 (hmin2 p1 hlo1 h)
        · exact h
        · exact absurd hg2 (hmin1 p2 hlo2 h)
      subst hpe
      rw [ih t2 (r + 1) (p1 + 1) hrest1 hrest2 (by simpa using hlen)]

/-- Full specification of a successful promotion: on an accepted word whose
minimum and maximum counts agree, the call succeeds and the result is again
an accepted word of the same content and length; moreover the rotated
buffer is recoverable from the result by rewriting its demotion points one
row down. -/
theorem promotion_spec (w : List Nat) (hw : isLatticeWord w = true) (hne : w ≠ [])
    (hcnt : w.count (listMinD w) = w.count (listMaxD w)) :
    ∃ o ps,
      promotion w = Except.ok o ∧
      isLatticeWord o = true ∧
      (∀ r, o.count r = w.count r) ∧
      o.length = w.length ∧
      ps.length = listMaxD w - listMinD w ∧
      DemotionSeq o (listMinD w + 1) 0 ps ∧
      fireWriteAux (listMinD w) o ps = listMinD w :: w.dropLast := by
  cases w with
  | nil => exact absurd rfl hne
  | cons a rest =>
    have hamn : a = listMinD (a :: rest) := head_eq_min a rest hw
    have hmn_mx : listMinD (a :: rest) ≤ listMaxD (a :: rest) :=
      le_trans (listMinD_le_mem _ a (by simp)) (le_listMaxD_mem _ a (by simp))
    have hcheck : isRectangleLoop a a 0 0 (a :: rest) = true := by
      rw [rect_check_iff a rest hw]
      exact beq_iff_eq.mpr hcnt
    obtain ⟨u, x, hux⟩ : ∃ u x, a :: rest = u ++ [x] := by
      rcases List.eq_nil_or_concat (a :: rest) with h | ⟨L, b2, h⟩
      · simp at h
      · exact ⟨L, b2, by rw [h, List.concat_eq_append]⟩
    have hdl : (a :: rest).dropLast = u := by
      rw [hux]
      exact List.dropLast_concat
    have hgl : (a :: rest).getLastD 0 = x := by
      rw [hux]
      exact List.getLastD_concat _ _ _
    have hw2 : isLatticeWord (u ++ [x]) = true := by
      rw [← hux]
      exact hw
    have hcnt2 : (u ++ [x]).count (listMinD (u ++ [x]))
        = (u ++ [x]).count (listMaxD (u ++ [x])) := by
      rw [← hux]
      exact hcnt
    have hxeq : x = listMaxD (a :: rest) := by
      have h0 := last_eq_max u x hw2 hcnt2
      rw [h0, ← hux]
    have hcw : ∀ y, (u ++ [x]).count y = u.count y + (if y = x then 1 else 0) :=
      fun y => count_append_singleton u x y
    have hb0 : 0 < (a :: rest).count a := by
      apply List.count_pos_iff.mpr
      simp
    have hballw : ∀ k s, ((a :: rest).take k).count (a + s + 1)
        ≤ ((a :: rest).take k).count (a + s) := by
      intro k s
      have h0 := ballot_take_counts (a :: rest) hw k s
      rwa [← hamn] at h0
    have huball : ∀ k s, (u.take k).count (a + s + 1) ≤ (u.take k).count (a + s) := by
      intro k s
      rcases le_or_lt k u.length with hk | hk
      · have h0 := hballw k s
        rw [hux, List.take_append_of_le_length hk] at h0
        exact h0
      · rw [List.take_of_length_le (by omega)]
        have h0 := hballw u.length s
        rw [hux, List.take_append_of_le_length le_rfl, List.take_length] at h0
        exact h0
    by_cases hdeg : listMaxD (a :: rest) = a
    · -- single-symbol content: the scan copies the buffer unchanged
      have hall : ∀ e ∈ a :: rest, e = a := by
        intro e he
        have h1 := listMinD_le_mem _ e he
        have h2 := le_listMaxD_mem _ e he
        omega
      have hallu : ∀ e ∈ u, e = a := by
        intro e he
        exact hall e (by
          rw [hux]
          exact List.Sublist.mem he (List.sublist_append_left u [x]))
      have hzw : a :: u = u ++ [x] := by
        have h1 : a :: u = List.replicate (a :: u).length a := by
          apply List.eq_replicate_of_mem
          intro e he
          rcases List.mem_cons.mp he with rfl | he2
          · rfl
          · exact hallu e he2
        have h2 : u ++ [x] = List.replicate ((u ++ [x]).length) a := by
          apply List.eq_replicate_of_mem
          intro e he
          rw [← hux] at he
          exact hall e he
        rw [h1, h2]
        simp
      have hallz : ∀ e ∈ (a :: (a :: rest).dropLast).reverse, e = listMaxD (a :: rest) := by
        intro e he
        rw [List.mem_reverse] at he
        rcases List.mem_cons.mp he with rfl | he2
        · omega
        · rw [hdl] at he2
          have := hallu e he2
          omega
      have hconst : promotionLoop a (listMaxD (a :: rest)) 1
          (fun i => if i = listMaxD (a :: rest) - a then 1 else 0)
          ((a :: (a :: rest).dropLast).reverse) = (a :: (a :: rest).dropLast).reverse :=
        promotionLoop_const _ a _ 1 _ hallz
      have hpromeq : promotion (a :: rest) = Except.ok (a :: rest) := by
        rw [promotion, hcheck]
        simp only [Bool.not_true, Bool.false_eq_true, if_false]
        rw [hgl, hxeq, hconst, List.reverse_reverse, hdl]
        rw [show a :: u = a :: rest by rw [hzw, ← hux]]
      refine ⟨a :: rest, [], hpromeq, hw, fun r => rfl, rfl, ?_, trivial, ?_⟩
      · simp
        omega
      · show a :: rest = listMinD (a :: rest) :: (a :: rest).dropLast
        rw [← hamn, hdl, hux]
        exact hzw.symm
    · have haM : a < listMaxD (a :: rest) := by omega
      have hballz : ∀ k s, ((a :: u).take k).count (a + s + 1)
          ≤ ((a :: u).take k).count (a + s) := by
        intro k s
        cases k with
        | zero => simp
        | succ k =>
          rw [List.take_succ_cons, count_cons_ite, count_cons_ite]
          have h0 := huball k s
          rw [if_neg (show ¬ a + s + 1 = a by omega)]
          by_cases hs0 : s = 0
          · rw [if_pos (show a + s = a by omega)]
            omega
          · rw [if_neg (show ¬ a + s = a by omega)]
            omega
      have hheadz : ∀ k, 0 < k → k ≤ (a :: u).length →
          ((a :: u).take k).count (a + 1) + 1 ≤ ((a :: u).take k).count a := by
        intro k h0 hk
        cases k with
        | zero => omega
        | succ k =>
          rw [List.take_succ_cons, count_cons_ite, count_cons_ite]
          rw [if_neg (show ¬ a + 1 = a by omega), if_pos rfl]
          have h1 : (u.take k).count (a + 1) ≤ (u.take k).count a := by
            simpa using huball k 0
          omega
      have hmemz : ∀ e ∈ a :: u, a ≤ e ∧ e ≤ listMaxD (a :: rest) := by
        intro e he
        rcases List.mem_cons.mp he with rfl | he2
        · omega
        · have hew : e ∈ a :: rest := by
            rw [hux]
            exact List.Sublist.mem he2 (List.sublist_append_left u [x])
          have h1 := listMinD_le_mem _ e hew
          have h2 := le_listMaxD_mem _ e hew
          omega
      have hA0 : ∀ s, s ≤ listMaxD (a :: rest) - a →
          (if s = listMaxD (a :: rest) - a then 1 else 0) + (a :: u).count (a + s)
            = (a :: rest).count a + (if s = 0 then 1 else 0) := by
        intro s hs
        have h1 : (a :: rest).count (a + s) = (a :: rest).count a := by
          have h0 := rect_counts_eq (a :: rest) hw hcnt (a + s) (by omega) (by omega)
          rwa [← hamn] at h0
        have h2 : (a :: rest).count (a + s) = u.count (a + s) + (if a + s = x then 1 else 0) := by
          rw [hux]
          exact hcw (a + s)
        have h3 : (a :: u).count (a + s) = u.count (a + s) + (if a + s = a then 1 else 0) :=
          count_cons_ite (a + s) a u
        have e1 : (if a + s = x then (1 : Nat) else 0)
            = (if s = listMaxD (a :: rest) - a then 1 else 0) := if_congr (by omega) rfl rfl
        have e2 : (if a + s = a then (1 : Nat) else 0) = (if s = 0 then 1 else 0) :=
          if_congr (by omega) rfl rfl
        rw [e1] at h2
        rw [e2] at h3
        omega
      obtain ⟨ps, hlen, hspec, hout⟩ := promotionLoop_spec (a :: u) a ((a :: rest).count a)
        (listMaxD (a :: rest)) (listMaxD (a :: rest)) 1
        (fun i => if i = listMaxD (a :: rest) - a then 1 else 0)
        hmemz hballz hheadz hA0
        (by simp)
        (by
          show (if listMaxD (a :: rest) - 1 - a = listMaxD (a :: rest) - a then 1 else 0) < 1
          rw [if_neg (show ¬ listMaxD (a :: rest) - 1 - a = listMaxD (a :: rest) - a by omega)]
          omega)
        haM le_rfl
      obtain ⟨hpw, hbnd, hfc, hgap⟩ := hspec
      have hpromeq : promotion (a :: rest)
          = Except.ok (fireWriteAux (a + 1) (a :: u) ps) := by
        rw [promotion, hcheck]
        simp only [Bool.not_true, Bool.false_eq_true, if_false]
        rw [hgl, hxeq, hdl, hout, List.reverse_reverse]
      have hocnt : ∀ r, (fireWriteAux (a + 1) (a :: u) ps).count r = (a :: rest).count r := by
        intro r
        have h0 := count_fireWriteAux ps a (a :: u) r hbnd (fun i hi => (hfc i hi).1) hpw
        rw [hlen] at h0
        have e1 : (if a + (listMaxD (a :: rest) - a) = r then (1 : Nat) else 0)
            = (if listMaxD (a :: rest) = r then 1 else 0) := if_congr (by omega) rfl rfl
        rw [e1] at h0
        have h2 : (a :: u).count r = u.count r + (if r = a then 1 else 0) :=
          count_cons_ite r a u
        have h3 : (a :: rest).count r = u.count r + (if r = x then 1 else 0) := by
          rw [hux]
          exact hcw r
        have e2 : (if r = x then (1 : Nat) else 0) = (if listMaxD (a :: rest) = r then 1 else 0) :=
          if_congr (by omega) rfl rfl
        rw [e2] at h3
        have e3 : (if a = r then (1 : Nat) else 0) = (if r = a then 1 else 0) :=
          if_congr (by omega) rfl rfl
        rw [e3] at h0
        omega
      have hoball := output_ballot a (a :: u) ps ⟨hpw, hbnd, hfc, hgap⟩ hballz hheadz
      have holen : (fireWriteAux (a + 1) (a :: u) ps).length = u.length + 1 := by
        rw [fireWriteAux_length]
        simp
      have homem : ∀ e ∈ fireWriteAux (a + 1) (a :: u) ps, a ≤ e := by
        intro e he
        have h1 : 0 < (fireWriteAux (a + 1) (a :: u) ps).count e :=
          List.count_pos_iff.mpr he
        rw [hocnt e] at h1
        have h2 : e ∈ a :: rest := List.count_pos_iff.mp h1
        have := listMinD_le_mem _ e h2
        omega
      have homin : listMinD (fireWriteAux (a + 1) (a :: u) ps) = a := by
        apply listMinD_eq_of_mem
        · apply List.count_pos_iff.mp
          rw [hocnt a]
          exact hb0
        · exact homem
      have hovalid : isLatticeWord (fireWriteAux (a + 1) (a :: u) ps) = true :=
        accepted_of_shifted_counts _ a homin homem hoball
      have hround : fireWriteAux a (fireWriteAux (a + 1) (a :: u) ps) ps = a :: u :=
        fireWriteAux_round ps a (a :: u) hpw hbnd (fun i hi => (hfc i hi).1)
      have hodem := output_demotion a (a :: u) ps ⟨hpw, hbnd, hfc, hgap⟩ hballz hheadz
      refine ⟨fireWriteAux (a + 1) (a :: u) ps, ps, hpromeq, hovalid, hocnt, ?_, ?_, ?_, ?_⟩
      · rw [holen, hux]
        simp
      · rw [hlen, ← hamn]
      · rw [← hamn]
        exact hodem
      · rw [← hamn, hdl]
        exact hround

/-- Promotion is injective on accepted words of a common rectangular
content. -/
theorem promotion_inj (w1 w2 : List Nat)
    (h1 : isLatticeWord w1 = true) (hne1 : w1 ≠ [])
    (h2 : isLatticeWord w2 = true) (hne2 : w2 ≠ [])
    (hcc : ∀ r, w1.count r = w2.count r)
    (hrect : w1.count (listMinD w1) = w1.count (listMaxD w1))
    (heq : promotion w1 = promotion w2) : w1 = w2 := by
  have hmn : listMinD w2 = listMinD w1 :=
    listMinD_eq_of_counts w1 w2 hne1 hne2 (fun r => (hcc r).symm)
  have hmx : listMaxD w2 = listMaxD w1 :=
    listMaxD_eq_of_counts w1 w2 hne1 hne2 (fun r => (hcc r).symm)
  have hrect2 : w2.count (listMinD w2) = w2.count (listMaxD w2) := by
    rw [hmn, hmx, ← hcc (listMinD w1), ← hcc (listMaxD w1)]
    exact hrect
  obtain ⟨o1, ps1, hp1, _, _, _, hl1, hd1, hf1⟩ := promotion_spec w1 h1 hne1 hrect
  obtain ⟨o2, ps2, hp2, _, _, _, hl2, hd2, hf2⟩ := promotion_spec w2 h2 hne2 hrect2
  rw [hp1, hp2] at heq
  have ho : o1 = o2 := by
    simpa using heq
  subst ho
  rw [hmn] at hd2 hf2
  rw [hmx, hmn] at hl2
  have hps : ps1 = ps2 :=
    demotionSeq_unique o1 ps1 ps2 (listMinD w1 + 1) 0 hd1 hd2 (by omega)
  subst hps
  have hv : listMinD w1 :: w1.dropLast = listMinD w1 :: w2.dropLast := by
    rw [← hf1, ← hf2]
  have hdrop : w1.dropLast = w2.dropLast := by
    simpa using hv
  obtain ⟨u1, x1, hu1⟩ : ∃ u x, w1 = u ++ [x] := by
    rcases List.eq_nil_or_concat w1 with h | ⟨L, b2, h⟩
    · exact absurd h hne1
    · exact ⟨L, b2, by rw [h, List.concat_eq_append]⟩
  obtain ⟨u2, x2, hu2⟩ : ∃ u x, w2 = u ++ [x] := by
    rcases List.eq_nil_or_concat w2 with h | ⟨L, b2, h⟩
    · exact absurd h hne2
    · exact ⟨L, b2, by rw [h, List.concat_eq_append]⟩
  have hx1 : x1 = listMaxD w1 := by
    have := last_eq_max u1 x1 (hu1 ▸ h1) (hu1 ▸ hrect)
    rw [this, ← hu1]
  have hx2 : x2 = listMaxD w2 := by
    have := last_eq_max u2 x2 (hu2 ▸ h2) (hu2 ▸ hrect2)
    rw [this, ← hu2]
  have hu12 : u1 = u2 := by
    have d1 : w1.dropLast = u1 := by
      rw [hu1]
      exact List.dropLast_concat
    have d2 : w2.dropLast = u2 := by
      rw [hu2]
      exact List.dropLast_concat
    rw [← d1, ← d2, hdrop]
  rw [hu1, hu2, hu12, hx1, hx2, hmx]

/-- Family membership forbids the empty word when the base is non-empty. -/
theorem family_ne (w u : List Nat) (hne : w ≠ []) (hfam : SameFamily w u) : u ≠ [] := by
  intro h0
  subst h0
  obtain ⟨_, hul, _⟩ := hfam
  exact hne (List.length_eq_zero.mp hul.symm)

/-- Promotion of a family member succeeds and stays in the family. -/
theorem promoteStep_family (w u : List Nat) (hne : w ≠ [])
    (hrect : w.count (listMinD w) = w.count (listMaxD w))
    (hfam : SameFamily w u) :
    promotion u = Except.ok (promoteStep u) ∧ SameFamily w (promoteStep u) := by
  obtain ⟨hu, hul, huc⟩ := hfam
  have hune : u ≠ [] := family_ne w u hne ⟨hu, hul, huc⟩
  have hwne : w ≠ [] := hne
  have hmn : listMinD u = listMinD w := listMinD_eq_of_counts w u hwne hune huc
  have hmx : listMaxD u = listMaxD w := listMaxD_eq_of_counts w u hwne hune huc
  have hurect : u.count (listMinD u) = u.count (listMaxD u) := by
    rw [hmn, hmx, huc, huc]
    exact hrect
  obtain ⟨o, ps, hpo, hov, hoc, hol, _, _, _⟩ := promotion_spec u hu hune hurect
  have hstep : promoteStep u = o := by
    rw [promoteStep, hpo]
  constructor
  · rw [hstep]
    exact hpo
  · rw [hstep]
    exact ⟨hov, by rw [hol, hul], fun r => by rw [hoc r, huc r]⟩

/-- The family is stable under iterated promotion. -/
theorem promoteIter_family (w : List Nat) (hne : w ≠ [])
    (hrect : w.count (listMinD w) = w.count (listMaxD w)) :
    ∀ k u, SameFamily w u → SameFamily w (promoteIter k u) := by
  intro k
  induction k with
  | zero => intro u h; exact h
  | succ k ih =>
    intro u h
    exact ih _ (promoteStep_family w u hne hrect h).2

/-- Along the family the `Except`-valued iteration never fails and agrees
with the total iteration. -/
theorem promotionIterate_eq (w : List Nat) (hne : w ≠ [])
    (hrect : w.count (listMinD w) = w.count (listMaxD w)) :
    ∀ k u, SameFamily w u →
      promotionIterate k u = Except.ok (promoteIter k u) := by
  intro k
  induction k with
  | zero => intro u _; rfl
  | succ k ih =>
    intro u h
    have hstep := promoteStep_family w u hne hrect h
    have hred : promotionIterate (k + 1) u
        = (match promotion u with
            | Except.ok o => promotionIterate k o
            | Except.error msg => Except.error msg) := rfl
    rw [hred, hstep.1]
    exact ih _ hstep.2

/-- One promotion step commutes with the iteration. -/
theorem promoteIter_comm (k : Nat) : ∀ u,
    promoteIter k (promoteStep u) = promoteStep (promoteIter k u) := by
  induction k with
  | zero => intro u; rfl
  | succ k ih =>
    intro u
    exact ih (promoteStep u)

/-- Cancelling a common number of leading promotion steps. -/
theorem promoteIter_cancel (w : List Nat) (hne : w ≠ [])
    (hrect : w.count (listMinD w) = w.count (listMaxD w)) (d : Nat) :
    ∀ m u, SameFamily w u → promoteIter m u = promoteIter (d + m) u →
      u = promoteIter d u := by
  intro m
  induction m with
  | zero => intro u _ h; exact h
  | succ m ih =>
    intro u hfam hiter
    have hstep := promoteStep_family w u hne hrect hfam
    have h1 : promoteStep u = promoteIter d (promoteStep u) :=
      ih (promoteStep u) hstep.2 hiter
    have hfam2 := promoteIter_family w hne hrect d u hfam
    rw [promoteIter_comm d u] at h1
    have hstep2 := promoteStep_family w (promoteIter d u) hne hrect hfam2
    have heqp : promotion u = promotion (promoteIter d u) := by
      rw [hstep.1, hstep2.1, h1]
    exact promotion_inj u (promoteIter d u)
      hfam.1 (family_ne w u hne hfam)
      hfam2.1 (family_ne w _ hne hfam2)
      (fun r => by rw [hfam.2.2 r, hfam2.2.2 r])
      (by
        have hmn : listMinD u = listMinD w :=
          listMinD_eq_of_counts w u hne (family_ne w u hne hfam) hfam.2.2
        have hmx : listMaxD u = listMaxD w :=
          listMaxD_eq_of_counts w u hne (family_ne w u hne hfam) hfam.2.2
        rw [hmn, hmx, hfam.2.2, hfam.2.2]
        exact hrect)
      heqp

/-- The base-`B + 1` encoding is bounded by `(B + 1) ^ length`. -/
theorem encNat_lt (B : Nat) : ∀ (l : List Nat), (∀ e ∈ l, e ≤ B) →
    encNat B l < (B + 1) ^ l.length := by
  intro l
  induction l with
  | nil => intro _; simp [encNat]
  | cons e t ih =>
    intro hb
    have h1 : encNat B t + 1 ≤ (B + 1) ^ t.length := ih (fun e2 he2 => hb e2 (by simp [he2]))
    have h2 : e ≤ B := hb e (by simp)
    show e + (B + 1) * encNat B t < (B + 1) ^ (t.length + 1)
    rw [pow_succ]
    have h3 : (B + 1) * (encNat B t + 1) ≤ (B + 1) * (B + 1) ^ t.length :=
      Nat.mul_le_mul_left _ h1
    have h4 : (B + 1) * (encNat B t + 1) = (B + 1) * encNat B t + (B + 1) := by ring
    have h5 : (B + 1) * (B + 1) ^ t.length = (B + 1) ^ t.length * (B + 1) := by ring
    omega

/-- The base-`B + 1` encoding is injective on digit words of a common
length. -/
theorem encNat_inj (B : Nat) : ∀ (l1 l2 : List Nat),
    (∀ e ∈ l1, e ≤ B) → (∀ e ∈ l2, e ≤ B) → l1.length = l2.length →
    encNat B l1 = encNat B l2 → l1 = l2 := by
  intro l1
  induction l1 with
  | nil =>
    intro l2 _ _ hlen _
    symm
    exact List.length_eq_zero.mp hlen.symm
  | cons e t ih =>
    intro l2 hb1 hb2 hlen henc
    cases l2 with
    | nil => simp at hlen
    | cons e2 t2 =>
      have hbe : e ≤ B := hb1 e (by simp)
      have hbe2 : e2 ≤ B := hb2 e2 (by simp)
      have h1 : e + (B + 1) * encNat B t = e2 + (B + 1) * encNat B t2 := henc
      have hm : e = e2 := by
        have hm1 : (e + (B + 1) * encNat B t) % (B + 1) = e := by
          rw [Nat.add_mul_mod_self_left, Nat.mod_eq_of_lt (by omega)]
        have hm2 : (e2 + (B + 1) * encNat B t2) % (B + 1) = e2 := by
          rw [Nat.add_mul_mod_self_left, Nat.mod_eq_of_lt (by omega)]
        rw [← hm1, ← hm2, h1]
      subst hm
      have h2 : (B + 1) * encNat B t = (B + 1) * encNat B t2 := by omega
      have hx : encNat B t = encNat B t2 := Nat.eq_of_mul_eq_mul_left (by omega) h2
      rw [ih t2 (fun e2 he2 => hb1 e2 (by simp [he2]))
        (fun e3 he3 => hb2 e3 (by simp [he3])) (by simpa using hlen) hx]

/-- Iterated promotion on an accepted word of rectangular content returns
to the start after finitely many steps. -/
theorem promoteIter_returns (w : List Nat) (hw : isLatticeWord w = true) (hne : w ≠ [])
    (hrect : w.count (listMinD w) = w.count (listMaxD w)) :
    ∃ k, 0 < k ∧ promoteIter k w = w := by
  have hfam0 : SameFamily w w := ⟨hw, rfl, fun r => rfl⟩
  have hbound : ∀ u, SameFamily w u → ∀ e ∈ u, e ≤ listMaxD w := by
    intro u hfam e he
    have h1 : 0 < u.count e := List.count_pos_iff.mpr he
    rw [hfam.2.2 e] at h1
    exact le_listMaxD_mem w e (List.count_pos_iff.mp h1)
  have henc_lt : ∀ m : Nat,
      encNat (listMaxD w) (promoteIter m w) < (listMaxD w + 1) ^ w.length := by
    intro m
    have hf := promoteIter_family w hne hrect m w hfam0
    have h0 := encNat_lt (listMaxD w) (promoteIter m w) (hbound _ hf)
    rwa [hf.2.1] at h0
  obtain ⟨m1, m2, hmne, hmeq⟩ := Fintype.exists_ne_map_eq_of_card_lt
    (fun m : Fin ((listMaxD w + 1) ^ w.length + 1) =>
      (⟨encNat (listMaxD w) (promoteIter m.1 w), henc_lt m.1⟩ :
        Fin ((listMaxD w + 1) ^ w.length)))
    (by simp)
  have hvne : m1.1 ≠ m2.1 := fun h => hmne (Fin.ext h)
  have hiter_eq : promoteIter m1.1 w = promoteIter m2.1 w := by
    have hf1 := promoteIter_family w hne hrect m1.1 w hfam0
    have hf2 := promoteIter_family w hne hrect m2.1 w hfam0
    refine encNat_inj (listMaxD w) _ _ (hbound _ hf1) (hbound _ hf2)
      (by rw [hf1.2.1, hf2.2.1]) ?_
    have h0 := congrArg Fin.val hmeq
    simpa using h0
  rcases Nat.lt_or_ge m1.1 m2.1 with hlt | hge
  · refine ⟨m2.1 - m1.1, by omega, ?_⟩
    have harg : promoteIter m1.1 w = promoteIter ((m2.1 - m1.1) + m1.1) w := by
      rw [show m2.1 - m1.1 + m1.1 = m2.1 by omega]
      exact hiter_eq
    exact (promoteIter_cancel w hne hrect (m2.1 - m1.1) m1.1 w hfam0 harg).symm
  · have hlt2 : m2.1 < m1.1 := by omega
    refine ⟨m1.1 - m2.1, by omega, ?_⟩
    have harg : promoteIter m2.1 w = promoteIter ((m1.1 - m2.1) + m2.1) w := by
      rw [show m1.1 - m2.1 + m2.1 = m1.1 by omega]
      exact hiter_eq.symm
    exact (promoteIter_cancel w hne hrect (m1.1 - m2.1) m2.1 w hfam0 harg).symm

/-- C7: promotion is a bijection on the lattice words of any fixed
rectangular content: for every accepted word passing the rectangularity
check there is a positive number of promotion steps, each succeeding, that
reproduces the original word. -/
theorem promotion_is_bijection_on_rectangular (w : List Nat)
    (hw : isLatticeWord w = true) (hrect : isRectangle? w = some true) :
    ∃ k, 0 < k ∧ promotionIterate k w = Except.ok w := by
  cases w with
  | nil => simp [isRectangle?] at hrect
  | cons a rest =>
    have hchk : isRectangleLoop a a 0 0 (a :: rest) = true := by
      rw [isRectangle?] at hrect
      simpa using hrect
    have hcnt : (a :: rest).count (listMinD (a :: rest))
        = (a :: rest).count (listMaxD (a :: rest)) := by
      have h0 := rect_check_iff a rest hw
      rw [hchk] at h0
      exact beq_iff_eq.mp h0.symm
    obtain ⟨k, hk, hkeq⟩ := promoteIter_returns (a :: rest) hw (by simp) hcnt
    refine ⟨k, hk, ?_⟩
    have h0 := promotionIterate_eq (a :: rest) (by simp) hcnt k (a :: rest)
      ⟨hw, rfl, fun r => rfl⟩
    rw [h0, hkeq]

/-- Witness for C7 at the word `[0, 1]` of rectangular content `[1, 1]`. -/
theorem promotion_is_bijection_on_rectangular_witness :
    isLatticeWord [0, 1] = true ∧ isRectangle? [0, 1] = some true ∧
    ∃ k, 0 < k ∧ promotionIterate k [0, 1] = Except.ok [0, 1] :=
  ⟨rfl, rfl, promotion_is_bijection_on_rectangular [0, 1] rfl rfl⟩

end RectangularPromotion
